import Mathlib

/-!
Verification of the MapReduce-style pipeline implemented by `findsp.c`
(process backend, POSIX shared memory) and `findst.c` (thread backend).

The development is a shallow embedding of the two programs:

* file contents are modelled as `List Nat` of byte values (10 = newline,
  32 = space, 58 = colon, 48..57 = decimal digits), so "byte identical"
  claims are equalities of `List Nat`;
* an input line is a `Line`: either a parseable record `Line.rec s d`
  (the text "s d") or `Line.bad`, a non-numeric malformed line;
* vertex ids that survive parsing and the non-negativity check are `Nat`;
  the C programs move them around as `int`/`long`/`uint32_t`, printing with
  `%d`/`%ld`/`%u` and re-parsing with `%d`/`%ld`/`%u`, which on the values
  reachable here (non-negative ints) is the identity, so the round trips
  through the intermediate text files are modelled as the identity on `Nat`;
* the unstable `qsort` calls are modelled with `List.insertionSort`; this is
  faithful because every comparator used by the programs is a total order
  and, at every call site, elements comparing equal are identical values,
  so the sorted result is unique regardless of stability.
-/

/-- An input line: `Line.edge s d` is a line that `sscanf("%d %d")` parses as
the two integers s and d; `Line.bad` is a line whose first token is not
numeric, so `%d`-style parsing fails at it (in `findsp` the line is skipped,
in `findst` the mapper's `fscanf` loop stops). -/
inductive Line where
  | edge (s d : Int) : Line
  | bad : Line
deriving DecidableEq, Repr

/-- A line that parses and passes the non-negative vertex check of
`findsp.c:split_input_file` (`source < 0 || dest < 0` is skipped). -/
def goodLine : Line → Bool
  | Line.edge s d => 0 ≤ s && 0 ≤ d
  | Line.bad => false

/-- Destination filter of `findsp.c:split_input_file` (lines 384-393):
if MIND or MAXD differs from -1, the record is kept iff
`¬(dest < min_filter ∨ dest > max_filter)`, where a bound equal to -1 is
replaced by `dest` itself (no constraint on that side). -/
def keepDest (mind maxd d : Int) : Bool :=
  if mind ≠ -1 ∨ maxd ≠ -1 then
    let lo := if mind ≠ -1 then mind else d
    let hi := if maxd ≠ -1 then maxd else d
    !(decide (d < lo) || decide (hi < d))
  else true

/-- Destination filter of `findst.c:run_mapper_thread` (line 368): the record
is skipped iff `(mind ≠ -1 ∧ d < mind) ∨ (maxd ≠ -1 ∧ d > maxd)`. -/
def keepDestT (mind maxd d : Int) : Bool :=
  !(decide (mind ≠ -1 ∧ d < mind) || decide (maxd ≠ -1 ∧ d > maxd))

theorem keepDest_eq_keepDestT (mind maxd d : Int) :
    keepDest mind maxd d = keepDestT mind maxd d := by
  unfold keepDest keepDestT
  by_cases h1 : mind = -1 <;> by_cases h2 : maxd = -1 <;> simp [h1, h2]

/-! ### Decimal byte rendering (printf `%d`/`%u`/`%ld`/`%zu` on non-negative
values) and its parsing inverse (`sscanf` `%d`/`%u`). -/

/-- Digit loop, with enough fuel to finish (the value shrinks by a factor of
ten per step, the fuel only by one). -/
def natToRevDigitsGo : Nat → Nat → List Nat
  | _, 0 => []
  | 0, _ + 1 => []
  | fuel + 1, n + 1 => ((n + 1) % 10) :: natToRevDigitsGo fuel ((n + 1) / 10)

/-- Decimal digits of n, least significant first (empty for 0). -/
def natToRevDigits (n : Nat) : List Nat := natToRevDigitsGo n n

theorem natToRevDigitsGo_fuel :
    ∀ (n f1 f2 : Nat), n ≤ f1 → n ≤ f2 →
      natToRevDigitsGo f1 n = natToRevDigitsGo f2 n := by
  intro n
  induction n using Nat.strong_induction_on with
  | _ n ih =>
    match n with
    | 0 =>
      intro f1 f2 _ _
      cases f1 <;> cases f2 <;> rfl
    | m + 1 =>
      intro f1 f2 h1 h2
      match f1, f2, h1, h2 with
      | a + 1, b + 1, h1, h2 =>
        rw [natToRevDigitsGo, natToRevDigitsGo]
        have hdiv : (m + 1) / 10 < m + 1 := Nat.div_lt_self (Nat.succ_pos m) (by norm_num)
        rw [ih ((m + 1) / 10) hdiv a b (by omega) (by omega)]

theorem natToRevDigits_eq (n : Nat) :
    natToRevDigits (n + 1) = ((n + 1) % 10) :: natToRevDigits ((n + 1) / 10) := by
  unfold natToRevDigits
  rw [natToRevDigitsGo]
  have hdiv : (n + 1) / 10 < n + 1 := Nat.div_lt_self (Nat.succ_pos n) (by norm_num)
  rw [natToRevDigitsGo_fuel ((n + 1) / 10) n ((n + 1) / 10) (by omega) (by omega)]

/-- Byte string printed for a non-negative value by printf (`"0"` for 0,
otherwise the decimal digits, most significant first). -/
def natBytes (n : Nat) : List Nat :=
  if n = 0 then [48] else ((natToRevDigits n).reverse).map (fun d => 48 + d)

/-- Value recovered from a digit byte string by `%u`-style scanning. -/
def decDigits (l : List Nat) : Nat :=
  l.foldl (fun a b => 10 * a + (b - 48)) 0

def isDigitByte (b : Nat) : Bool := 48 ≤ b && b ≤ 57

theorem natToRevDigits_lt (n : Nat) : ∀ d ∈ natToRevDigits n, d < 10 := by
  induction n using Nat.strong_induction_on with
  | _ n ih =>
    match n with
    | 0 => intro d hd; simp [natToRevDigits, natToRevDigitsGo] at hd
    | m + 1 =>
      intro d hd
      rw [natToRevDigits_eq] at hd
      rcases List.mem_cons.1 hd with h | h
      · subst h; exact Nat.mod_lt _ (by norm_num)
      · exact ih ((m + 1) / 10) (Nat.div_lt_self (Nat.succ_pos m) (by norm_num)) d h

theorem natBytes_digits (n : Nat) : ∀ b ∈ natBytes n, isDigitByte b = true := by
  intro b hb
  unfold natBytes at hb
  split at hb
  · simp at hb; subst hb; decide
  · simp only [List.mem_map, List.mem_reverse] at hb
    obtain ⟨d, hd, rfl⟩ := hb
    have := natToRevDigits_lt n d hd
    simp [isDigitByte]; omega

theorem natBytes_ne_nil (n : Nat) : natBytes n ≠ [] := by
  unfold natBytes
  split
  · simp
  · intro h
    simp only [List.map_eq_nil_iff, List.reverse_eq_nil_iff] at h
    rename_i hn
    match hm : n with
    | 0 => exact hn rfl
    | m + 1 => rw [natToRevDigits_eq] at h; simp at h

theorem decDigits_append_digit (l : List Nat) (b : Nat) :
    decDigits (l ++ [b]) = 10 * decDigits l + (b - 48) := by
  unfold decDigits
  rw [List.foldl_append]
  rfl

theorem decDigits_natBytes (n : Nat) : decDigits (natBytes n) = n := by
  unfold natBytes
  split
  · subst n; decide
  · rename_i hn
    suffices h : ∀ m, decDigits (((natToRevDigits m).reverse).map (fun d => 48 + d)) = m by
      exact h n
    intro m
    induction m using Nat.strong_induction_on with
    | _ m ih =>
      match m with
      | 0 => simp [natToRevDigits, natToRevDigitsGo, decDigits]
      | k + 1 =>
        rw [natToRevDigits_eq]
        simp only [List.reverse_cons, List.map_append, List.map_cons, List.map_nil]
        rw [decDigits_append_digit]
        rw [ih ((k + 1) / 10) (Nat.div_lt_self (Nat.succ_pos k) (by norm_num))]
        have h2 : 48 + (k + 1) % 10 - 48 = (k + 1) % 10 := by omega
        rw [h2]
        exact Nat.div_add_mod (k + 1) 10

/-! ### Sorting infrastructure.

`findsp.c:compare_pairs` and `findst.c:compare_dest_src` order pairs by dest
then source; `compare_destcount` and `compare_dest_count` order by dest;
`compare_long` orders values. All are total orders and at every call site
elements that compare equal are identical, so the unstable `qsort` result is
the unique sorted permutation; we model it by `List.insertionSort`. -/

/-- Order on (dest, source) pairs implemented by `compare_pairs` /
`compare_dest_src`: dest ascending, then source ascending. -/
def pairLe (a b : Nat × Nat) : Prop :=
  a.1 < b.1 ∨ (a.1 = b.1 ∧ a.2 ≤ b.2)

instance : DecidableRel pairLe := fun a b =>
  inferInstanceAs (Decidable (a.1 < b.1 ∨ (a.1 = b.1 ∧ a.2 ≤ b.2)))

instance : IsTotal (Nat × Nat) pairLe :=
  ⟨fun a b => by unfold pairLe; omega⟩

instance : IsTrans (Nat × Nat) pairLe :=
  ⟨fun a b c hab hbc => by unfold pairLe at *; omega⟩

instance : IsAntisymm (Nat × Nat) pairLe :=
  ⟨fun a b hab hba => by
    unfold pairLe at *
    have h1 : a.1 = b.1 := by omega
    have h2 : a.2 = b.2 := by omega
    exact Prod.ext h1 h2⟩

/-- Order on (dest, value) entries implemented by `compare_destcount` /
`compare_dest_count`: dest ascending. -/
def destLe (a b : Nat × Nat) : Prop := a.1 ≤ b.1

instance : DecidableRel destLe := fun a b =>
  inferInstanceAs (Decidable (a.1 ≤ b.1))

instance : IsTotal (Nat × Nat) destLe := ⟨fun a b => by unfold destLe; omega⟩

instance : IsTrans (Nat × Nat) destLe :=
  ⟨fun a b c hab hbc => by unfold destLe at *; omega⟩

/-- The `qsort(compare_pairs)` call of `reducer_process` (findsp line 950) and
`qsort(compare_dest_src)` of `run_reducer_thread` (findst line 451). -/
def sortPairs (l : List (Nat × Nat)) : List (Nat × Nat) :=
  List.insertionSort pairLe l

/-- The `qsort(compare_long)` call of `run_reducer_thread` (findst line 482)
on the collected unique sources. -/
def sortNat (l : List Nat) : List Nat :=
  List.insertionSort (fun a b : Nat => a ≤ b) l

/-- The dest-keyed `qsort` of `process_shared_memory` (findsp line 1358) and
of findst main (line 293). -/
def sortByDest (l : List (Nat × Nat)) : List (Nat × Nat) :=
  List.insertionSort destLe l

theorem sortPairs_sorted (l : List (Nat × Nat)) : (sortPairs l).Sorted pairLe :=
  List.sorted_insertionSort pairLe l

theorem sortPairs_perm (l : List (Nat × Nat)) : (sortPairs l).Perm l :=
  List.perm_insertionSort pairLe l

/-- The sorted result depends only on the multiset of pairs: because `pairLe`
is an antisymmetric total order, the sorted permutation is unique. -/
theorem sortPairs_congr {l₁ l₂ : List (Nat × Nat)} (h : l₁.Perm l₂) :
    sortPairs l₁ = sortPairs l₂ := by
  refine List.eq_of_perm_of_sorted ?_ (sortPairs_sorted l₁) (sortPairs_sorted l₂)
  exact ((sortPairs_perm l₁).trans h).trans (sortPairs_perm l₂).symm

/-- Two lists that are strictly sorted on a Nat key and have the same members
are equal.  Used to identify every sorted-unique construction in the pipeline
with its specification. -/
theorem eq_of_key_sorted_of_mem_iff {α : Type} (f : α → Nat) :
    ∀ (l₁ l₂ : List α), l₁.Pairwise (fun a b => f a < f b) →
      l₂.Pairwise (fun a b => f a < f b) → (∀ x, x ∈ l₁ ↔ x ∈ l₂) → l₁ = l₂ := by
  intro l₁
  induction l₁ with
  | nil =>
    intro l₂ _ _ hmem
    cases l₂ with
    | nil => rfl
    | cons b t => exact absurd ((hmem b).2 (List.mem_cons_self b t)) (List.not_mem_nil b)
  | cons a t ih =>
    intro l₂ h₁ h₂ hmem
    cases l₂ with
    | nil => exact absurd ((hmem a).1 (List.mem_cons_self a t)) (List.not_mem_nil a)
    | cons b t₂ =>
      obtain ⟨hhd₁, htl₁⟩ := List.pairwise_cons.1 h₁
      obtain ⟨hhd₂, htl₂⟩ := List.pairwise_cons.1 h₂
      have ha : a ∈ b :: t₂ := (hmem a).1 (List.mem_cons_self a t)
      have hb : b ∈ a :: t := (hmem b).2 (List.mem_cons_self b t₂)
      have hab : a = b := by
        rcases List.mem_cons.1 ha with h | hat₂
        · exact h
        rcases List.mem_cons.1 hb with h | hbt
        · exact h.symm
        exact absurd (hhd₂ a hat₂) (Nat.lt_asymm (hhd₁ b hbt))
      subst hab
      have htmem : ∀ x, x ∈ t ↔ x ∈ t₂ := by
        intro x
        constructor
        · intro hx
          rcases List.mem_cons.1 ((hmem x).1 (List.mem_cons_of_mem a hx)) with h | h
          · exact absurd (hhd₁ x hx) (by rw [h]; exact Nat.lt_irrefl _)
          · exact h
        · intro hx
          rcases List.mem_cons.1 ((hmem x).2 (List.mem_cons_of_mem a hx)) with h | h
          · exact absurd (hhd₂ x hx) (by rw [h]; exact Nat.lt_irrefl _)
          · exact h
      rw [ih t₂ htl₁ htl₂ htmem]

/-- Specification device: the ascending duplicate-free list of the values
occurring in xs. -/
def sortedDedup (xs : List Nat) : List Nat := sortNat xs.dedup

theorem sortNat_perm (xs : List Nat) : (sortNat xs).Perm xs :=
  List.perm_insertionSort _ xs

theorem sortNat_sorted (xs : List Nat) : (sortNat xs).Sorted (fun a b : Nat => a ≤ b) :=
  List.sorted_insertionSort _ xs

theorem sortNat_mem (xs : List Nat) (a : Nat) : a ∈ sortNat xs ↔ a ∈ xs :=
  (sortNat_perm xs).mem_iff

theorem sortedDedup_nodup (xs : List Nat) : (sortedDedup xs).Nodup :=
  ((sortNat_perm xs.dedup).symm).nodup (List.nodup_dedup xs)

theorem sortedDedup_sorted (xs : List Nat) : (sortedDedup xs).Pairwise (· < ·) := by
  have hs : (sortedDedup xs).Pairwise (fun a b : Nat => a ≤ b) := sortNat_sorted xs.dedup
  have hn : (sortedDedup xs).Pairwise (fun a b : Nat => a ≠ b) := sortedDedup_nodup xs
  exact (hs.and hn).imp (fun h => Nat.lt_of_le_of_ne h.1 h.2)

theorem sortedDedup_mem (xs : List Nat) (a : Nat) : a ∈ sortedDedup xs ↔ a ∈ xs := by
  unfold sortedDedup
  rw [sortNat_mem, List.mem_dedup]

/-- Any strictly ascending list with the same members as xs is the sorted
dedup of xs. -/
theorem sortedDedup_unique {zs xs : List Nat} (hz : zs.Pairwise (· < ·))
    (hmem : ∀ a, a ∈ zs ↔ a ∈ xs) : zs = sortedDedup xs := by
  refine eq_of_key_sorted_of_mem_iff (fun a => a) zs (sortedDedup xs) hz
    (sortedDedup_sorted xs) ?_
  intro a
  rw [sortedDedup_mem]
  exact hmem a

theorem sortedDedup_congr {xs ys : List Nat} (h : xs.Perm ys) :
    sortedDedup xs = sortedDedup ys := by
  refine sortedDedup_unique (sortedDedup_sorted xs) ?_
  intro a
  rw [sortedDedup_mem, h.mem_iff]

/-! ### findsp: splitter and mapper (`split_input_file`, `mapper_process`). -/

/-- Read loop of `findsp.c:split_input_file` (lines 367-402). The counter j
is `line_num`: a malformed line and a line with a negative vertex are skipped
without touching `line_num`; a parsed, non-negative record that fails the
destination filter advances `line_num` and is dropped; a kept record is
appended to split file `line_num % M` and advances `line_num`.  The result
lists, in stream order, each kept record tagged with its split index. -/
def assignP (M : Nat) (mind maxd : Int) : List Line → Nat → List (Nat × (Nat × Nat))
  | [], _ => []
  | Line.bad :: rest, j => assignP M mind maxd rest j
  | Line.edge s d :: rest, j =>
      if 0 ≤ s ∧ 0 ≤ d then
        if keepDest mind maxd d then
          (j % M, (s.toNat, d.toNat)) :: assignP M mind maxd rest (j + 1)
        else assignP M mind maxd rest (j + 1)
      else assignP M mind maxd rest j

/-- Content of split file i after `split_input_file`: the records assigned to
index i, in stream order (records are written as "%d %d\n" and re-parsed by
the mapper with `sscanf("%d %d")`, an identity round trip). -/
def segP (M : Nat) (mind maxd : Int) (lines : List Line) (i : Nat) : List (Nat × Nat) :=
  ((assignP M mind maxd lines 0).filter (fun e => e.1 == i)).map (fun e => e.2)

/-- `mapper_process` (findsp lines 475-490): for each record (s, d) of its
split file, append the reversed pair (d, s) to intermediate file `d % R`.
This is the content of intermediate file (mapper, r). -/
def mapperPairsP (R : Nat) (seg : List (Nat × Nat)) (r : Nat) : List (Nat × Nat) :=
  (seg.filter (fun e => e.2 % R == r)).map (fun e => (e.2, e.1))

/-- Pairs accumulated by `reducer_process` for partition r (findsp lines
906-944): the intermediate files `intermediate-m-r` are read for m = 0..M-1
in order and their pairs appended (written "%d %d\n", re-read "%u %u",
an identity round trip on the reachable values). -/
def pairsAtRedP (M R : Nat) (mind maxd : Int) (lines : List Line) (r : Nat) :
    List (Nat × Nat) :=
  (List.range M).flatMap (fun m => mapperPairsP R (segP M mind maxd lines m) r)

/-! ### findsp: reducer grouping (`group_and_write_output`). -/

/-- Inner while loop of `group_and_write_output` (findsp lines 843-869): scan
the run of pairs whose dest equals d, collecting each source that differs
from the previously collected one (pairs are sorted, so duplicate sources are
adjacent).  prev is the previously collected source; the C sentinel
UINT32_MAX is modelled as `none` (sources reach this code through `%d`
parsing, so the sentinel value itself is unreachable).  Returns the collected
sources and the rest of the list after the run. -/
def runScan (d : Nat) (prev : Option Nat) : List (Nat × Nat) → List Nat × List (Nat × Nat)
  | [] => ([], [])
  | (d2, s) :: rest =>
      if d2 = d then
        if some s = prev then runScan d prev rest
        else
          let res := runScan d (some s) rest
          (s :: res.1, res.2)
      else ([], (d2, s) :: rest)

theorem runScan_snd_length (d : Nat) :
    ∀ (l : List (Nat × Nat)) (prev : Option Nat), (runScan d prev l).2.length ≤ l.length := by
  intro l
  induction l with
  | nil => intro prev; simp [runScan]
  | cons hd rest ih =>
    intro prev
    obtain ⟨d2, s⟩ := hd
    rw [runScan]
    by_cases h1 : d2 = d
    · by_cases h2 : some s = prev
      · simp only [h1, h2, if_pos rfl, if_pos]
        exact Nat.le_succ_of_le (ih prev)
      · simp only [h1, if_pos rfl, if_neg h2]
        exact Nat.le_succ_of_le (ih (some s))
    · simp only [if_neg h1]
      exact Nat.le_refl _

/-- Outer loop of `group_and_write_output` (findsp lines 826-884): for each
run of pairs with equal dest, emit (dest, unique sources in collected order).
The run starts at the first pair (d, s); prev is the sentinel there, so s is
always collected first. -/
def groupPairs : List (Nat × Nat) → List (Nat × List Nat)
  | [] => []
  | (d, s) :: rest =>
      (d, s :: (runScan d (some s) rest).1) :: groupPairs (runScan d (some s) rest).2
termination_by l => l.length
decreasing_by
  simp only [List.length_cons]
  exact Nat.lt_succ_of_le (runScan_snd_length _ _ _)

/-! ### Byte rendering of the output files. -/

/-- One adjacency line as written by findsp `group_and_write_output` (lines
871-876): `"%u:"`, then `" %u"` for every source, then a newline. -/
def adjLineP (g : Nat × List Nat) : List Nat :=
  natBytes g.1 ++ 58 :: (g.2.flatMap (fun s => 32 :: natBytes s)) ++ [10]

/-- A whole per-reducer adjacency output file. -/
def adjFileP (gs : List (Nat × List Nat)) : List Nat := gs.flatMap adjLineP

/-- One count line "%u %u\n" (identical bytes are produced by findsp
`write_to_shared_memory` / `process_shared_memory` and by findst main
line 306 on the non-negative values reachable here). -/
def countLine (e : Nat × Nat) : List Nat := natBytes e.1 ++ 32 :: natBytes e.2 ++ [10]

/-- A whole count output file. -/
def countFile (es : List (Nat × Nat)) : List Nat := es.flatMap countLine

/-! ### findsp: shared-memory slice encode (`write_to_shared_memory`) and
decode (`process_shared_memory`). -/

/-- Slice capacity from `initialize_shm_layout` (findsp lines 643-682): total
2^SHMSIZE bytes, header 4 + 8(R+1) bytes, remainder divided by R.  The C
size_t subtraction is modelled by truncated Nat subtraction; a header larger
than the total size makes the C program address memory outside the mapping,
which is outside this model. -/
def regionSize (shmsize R : Nat) : Nat :=
  (2 ^ shmsize - (4 + 8 * (R + 1))) / R

/-- `write_to_shared_memory` (findsp lines 787-814) applied to the reducer's
successive (dest, count) emissions, starting from w bytes already written: a
formatted line that fits in the remaining capacity is appended and advances
the write offset; one that does not fit is skipped with a warning (the -1
return value is ignored by `group_and_write_output`, line 879) and the scan
continues.  Returns the slice content and the entries actually written. -/
def shmWrite (max : Nat) : List (Nat × Nat) → Nat → List Nat × List (Nat × Nat)
  | [], _ => ([], [])
  | e :: rest, w =>
      if w + (countLine e).length ≤ max then
        let res := shmWrite max rest (w + (countLine e).length)
        (countLine e ++ res.1, e :: res.2)
      else shmWrite max rest w

/-- Split a byte region into newline-separated chunks, as the scanning loop
of `process_shared_memory` does (findsp lines 1317-1351); the region content
ends at the first NUL byte, which in the model is the end of the list since
writes are contiguous from the start of the zeroed slice. -/
def splitOnNl : List Nat → List (List Nat)
  | [] => []
  | b :: t =>
      if b = 10 then [] :: splitOnNl t
      else
        match splitOnNl t with
        | [] => [[b]]
        | l :: ls => (b :: l) :: ls

def isWsByte (b : Nat) : Bool := b = 32 || b = 9 || b = 10

/-- Scan one unsigned decimal token as `%u` does: skip whitespace, read a
non-empty digit string.  Returns the value and the rest of the bytes. -/
def parseNatTok (l : List Nat) : Option (Nat × List Nat) :=
  if ((l.dropWhile isWsByte).takeWhile isDigitByte).isEmpty then none
  else some (decDigits ((l.dropWhile isWsByte).takeWhile isDigitByte),
    (l.dropWhile isWsByte).dropWhile isDigitByte)

/-- Parse one region line with `sscanf("%u %u")` (findsp line 1337); lines
that do not yield two values are skipped with a warning. -/
def parseCountLine (l : List Nat) : Option (Nat × Nat) :=
  match parseNatTok l with
  | none => none
  | some (a, r) =>
      match parseNatTok r with
      | none => none
      | some (b, _) => some (a, b)

/-- `process_shared_memory`'s per-region parse (findsp lines 1296-1352). -/
def decodeRegion (bytes : List Nat) : List (Nat × Nat) :=
  (splitOnNl bytes).filterMap parseCountLine

/-! ### Specification side: the adjacency / count view the spec describes. -/

/-- Claim-level input view: the (dest, source) pairs of the records that
parse, have non-negative vertices, and pass the destination filter. -/
def keptPairs (mind maxd : Int) (lines : List Line) : List (Nat × Nat) :=
  lines.filterMap (fun l =>
    match l with
    | Line.edge s d =>
        if 0 ≤ s ∧ 0 ≤ d then
          if keepDest mind maxd d then some (d.toNat, s.toNat) else none
        else none
    | Line.bad => none)

/-- Ascending duplicate-free list of the sources of dest d among ps. -/
def specSources (ps : List (Nat × Nat)) (d : Nat) : List Nat :=
  sortedDedup ((ps.filter (fun p => p.1 == d)).map (fun p => p.2))

/-- Specification adjacency view of a pair list: ascending unique dests, each
with its ascending unique sources. -/
def specAdj (ps : List (Nat × Nat)) : List (Nat × List Nat) :=
  (sortedDedup (ps.map (fun p => p.1))).map (fun d => (d, specSources ps d))

/-- Specification count view: each surviving dest with its number of unique
sources. -/
def specCounts (ps : List (Nat × Nat)) : List (Nat × Nat) :=
  (specAdj ps).map (fun g => (g.1, g.2.length))

theorem specSources_congr {ps qs : List (Nat × Nat)} (h : ps.Perm qs) (d : Nat) :
    specSources ps d = specSources qs d :=
  sortedDedup_congr ((h.filter _).map _)

theorem specAdj_congr {ps qs : List (Nat × Nat)} (h : ps.Perm qs) :
    specAdj ps = specAdj qs := by
  unfold specAdj
  rw [sortedDedup_congr (h.map _)]
  exact List.map_congr_left (fun d _ => by rw [specSources_congr h d])

/-! ### The adjacent-source dedup of the reducers, and its relation to
`sortedDedup` on sorted runs. -/

/-- Adjacent dedup with an explicit previous value: the source-collection
discipline shared by `group_and_write_output` (findsp) and
`run_reducer_thread` (findst). -/
def dedupAdj (prev : Option Nat) : List Nat → List Nat
  | [] => []
  | s :: rest => if some s = prev then dedupAdj prev rest else s :: dedupAdj (some s) rest

theorem runScan_fst (d : Nat) :
    ∀ (l : List (Nat × Nat)) (prev : Option Nat),
      (runScan d prev l).1 = dedupAdj prev ((l.takeWhile (fun q => q.1 == d)).map (fun q => q.2)) := by
  intro l
  induction l with
  | nil => intro prev; simp [runScan, dedupAdj]
  | cons hd rest ih =>
    intro prev
    obtain ⟨d2, s⟩ := hd
    rw [runScan]
    by_cases h1 : d2 = d
    · subst h1
      rw [List.takeWhile_cons]
      simp only [beq_self_eq_true, if_pos rfl, List.map_cons, dedupAdj]
      by_cases h2 : some s = prev
      · simp [if_pos h2, ih prev]
      · simp [if_neg h2, ih (some s)]
    · rw [List.takeWhile_cons]
      have hb : (d2 == d) = false := by simp [h1]
      simp [h1, hb, dedupAdj]

theorem runScan_snd (d : Nat) :
    ∀ (l : List (Nat × Nat)) (prev : Option Nat),
      (runScan d prev l).2 = l.dropWhile (fun q => q.1 == d) := by
  intro l
  induction l with
  | nil => intro prev; simp [runScan]
  | cons hd rest ih =>
    intro prev
    obtain ⟨d2, s⟩ := hd
    rw [runScan]
    by_cases h1 : d2 = d
    · subst h1
      rw [List.dropWhile_cons]
      simp only [beq_self_eq_true, if_pos rfl]
      by_cases h2 : some s = prev
      · simp [if_pos h2, ih prev]
      · simp [if_neg h2, ih (some s)]
    · rw [List.dropWhile_cons]
      have hb : (d2 == d) = false := by simp [h1]
      simp [h1, hb]

theorem mem_dedupAdj {a : Nat} :
    ∀ (xs : List Nat) (prev : Option Nat), a ∈ dedupAdj prev xs → a ∈ xs := by
  intro xs
  induction xs with
  | nil => intro prev h; simp [dedupAdj] at h
  | cons s rest ih =>
    intro prev h
    rw [dedupAdj] at h
    split at h
    · exact List.mem_cons_of_mem s (ih prev h)
    · rcases List.mem_cons.1 h with h2 | h2
      · exact h2 ▸ List.mem_cons_self s rest
      · exact List.mem_cons_of_mem s (ih (some s) h2)

theorem mem_dedupAdj_of_mem {a : Nat} :
    ∀ (xs : List Nat) (prev : Option Nat), a ∈ xs →
      some a = prev ∨ a ∈ dedupAdj prev xs := by
  intro xs
  induction xs with
  | nil => intro prev h; simp at h
  | cons s rest ih =>
    intro prev h
    rw [dedupAdj]
    by_cases hsp : some s = prev
    · rw [if_pos hsp]
      rcases List.mem_cons.1 h with h2 | h2
      · exact Or.inl (h2 ▸ hsp)
      · exact ih prev h2
    · rw [if_neg hsp]
      rcases List.mem_cons.1 h with h2 | h2
      · exact Or.inr (h2 ▸ List.mem_cons_self s _)
      · rcases ih (some s) h2 with h3 | h3
        · have : a = s := by injection h3
          exact Or.inr (this ▸ List.mem_cons_self s _)
        · exact Or.inr (List.mem_cons_of_mem s h3)

theorem dedupAdj_sorted_lt :
    ∀ (xs : List Nat) (p : Nat), xs.Pairwise (fun a b : Nat => a ≤ b) →
      (∀ x ∈ xs, p ≤ x) → (p :: dedupAdj (some p) xs).Pairwise (· < ·) := by
  intro xs
  induction xs with
  | nil => intro p _ _; simp [dedupAdj]
  | cons s rest ih =>
    intro p hsort hlb
    obtain ⟨hhd, htl⟩ := List.pairwise_cons.1 hsort
    rw [dedupAdj]
    by_cases hsp : some s = (some p : Option Nat)
    · rw [if_pos hsp]
      have hs : s = p := by injection hsp
      subst hs
      exact ih s htl hhd
    · rw [if_neg hsp]
      have hps : p < s := by
        have h1 : p ≤ s := hlb s (List.mem_cons_self s rest)
        have h2 : s ≠ p := fun h => hsp (by rw [h])
        omega
      have hrest : (s :: dedupAdj (some s) rest).Pairwise (· < ·) := ih s htl hhd
      refine List.pairwise_cons.2 ⟨?_, hrest⟩
      intro b hb
      rcases List.mem_cons.1 hb with h2 | h2
      · exact h2 ▸ hps
      · have : s ≤ b := hhd b (mem_dedupAdj rest (some s) h2)
        omega

/-- On a sorted run s :: xs, the adjacent dedup starting with collected s is
exactly the ascending duplicate-free list of the run's values. -/
theorem cons_dedupAdj_eq_sortedDedup {s : Nat} {xs : List Nat}
    (hsort : xs.Pairwise (fun a b : Nat => a ≤ b)) (hlb : ∀ x ∈ xs, s ≤ x) :
    s :: dedupAdj (some s) xs = sortedDedup (s :: xs) := by
  refine sortedDedup_unique (dedupAdj_sorted_lt xs s hsort hlb) ?_
  intro a
  constructor
  · intro h
    rcases List.mem_cons.1 h with h2 | h2
    · exact h2 ▸ List.mem_cons_self s xs
    · exact List.mem_cons_of_mem s (mem_dedupAdj xs (some s) h2)
  · intro h
    rcases List.mem_cons.1 h with h2 | h2
    · exact h2 ▸ List.mem_cons_self s _
    · rcases mem_dedupAdj_of_mem xs (some s) h2 with h3 | h3
      · have : a = s := by injection h3
        exact this ▸ List.mem_cons_self s _
      · exact List.mem_cons_of_mem s h3

theorem dropWhileKey_gt (d : Nat) :
    ∀ (rest : List (Nat × Nat)), rest.Pairwise pairLe → (∀ y ∈ rest, d ≤ y.1) →
      ∀ x ∈ rest.dropWhile (fun q => q.1 == d), d < x.1 := by
  intro rest
  induction rest with
  | nil => intro _ _ x hx; simp at hx
  | cons hd t ih =>
    intro hpair hlb x hx
    obtain ⟨hhd, htl⟩ := List.pairwise_cons.1 hpair
    rw [List.dropWhile_cons] at hx
    by_cases h1 : hd.1 = d
    · simp only [h1, beq_self_eq_true, if_pos rfl] at hx
      exact ih htl (fun y hy => hlb y (List.mem_cons_of_mem hd hy)) x hx
    · have hb : (hd.1 == d) = false := by simp [h1]
      simp only [hb, Bool.false_eq_true, if_neg] at hx
      have hdle : d ≤ hd.1 := hlb hd (List.mem_cons_self hd t)
      rcases List.mem_cons.1 hx with h2 | h2
      · subst h2; omega
      · have := hhd x h2
        unfold pairLe at this
        omega

theorem groupPairs_eq_specAdj :
    ∀ (l : List (Nat × Nat)), l.Pairwise pairLe → groupPairs l = specAdj l := by
  suffices h : ∀ (n : Nat) (l : List (Nat × Nat)), l.length = n → l.Pairwise pairLe →
      groupPairs l = specAdj l by
    intro l hs
    exact h l.length l rfl hs
  intro n
  induction n using Nat.strong_induction_on with
  | _ n ih =>
    intro l
    match l with
    | [] =>
      intro _ _
      rw [groupPairs]
      rfl
    | (d, s) :: rest =>
      intro hn hs
      obtain ⟨hhd, h0⟩ := List.pairwise_cons.1 hs
      have hyge : ∀ y ∈ rest, d ≤ y.1 := by
        intro y hy
        have := hhd y hy
        unfold pairLe at this
        omega
      have hBmem : ∀ q ∈ rest.takeWhile (fun q => q.1 == d), q.1 = d := by
        intro q hq
        have := List.mem_takeWhile_imp hq
        simpa using this
      have hRmem : ∀ x ∈ rest.dropWhile (fun q => q.1 == d), d < x.1 :=
        dropWhileKey_gt d rest h0 hyge
      have hsplit : rest.takeWhile (fun q => q.1 == d) ++ rest.dropWhile (fun q => q.1 == d) = rest :=
        List.takeWhile_append_dropWhile _ _
      have hBpair : (rest.takeWhile (fun q => q.1 == d)).Pairwise pairLe :=
        List.Pairwise.sublist (List.takeWhile_sublist _) h0
      have hRpair : (rest.dropWhile (fun q => q.1 == d)).Pairwise pairLe :=
        List.Pairwise.sublist (List.dropWhile_sublist _) h0
      have hsndSorted : ((rest.takeWhile (fun q => q.1 == d)).map (fun q => q.2)).Pairwise
          (fun a b : Nat => a ≤ b) := by
        rw [List.pairwise_map]
        refine List.Pairwise.imp_of_mem ?_ hBpair
        intro a b ha hb hab
        have h1 : a.1 = d := hBmem a ha
        have h2 : b.1 = d := hBmem b hb
        unfold pairLe at hab
        omega
      have hsndLb : ∀ x ∈ (rest.takeWhile (fun q => q.1 == d)).map (fun q => q.2), s ≤ x := by
        intro x hx
        obtain ⟨q, hq, rfl⟩ := List.mem_map.1 hx
        have h1 : q.1 = d := hBmem q hq
        have h2 := hhd q ((List.takeWhile_sublist _).subset hq)
        unfold pairLe at h2
        omega
      -- one step of groupPairs
      have hgp : groupPairs ((d, s) :: rest) =
          (d, s :: dedupAdj (some s) ((rest.takeWhile (fun q => q.1 == d)).map (fun q => q.2)))
            :: groupPairs (rest.dropWhile (fun q => q.1 == d)) := by
        rw [groupPairs]
        rw [runScan_fst, runScan_snd]
      -- the filter of the head run
      have hfl : ((d, s) :: rest).filter (fun p => p.1 == d) =
          (d, s) :: rest.takeWhile (fun q => q.1 == d) := by
        rw [List.filter_cons]
        simp only [beq_self_eq_true, if_true]
        congr 1
        conv_lhs => rw [← hsplit]
        rw [List.filter_append]
        have h1 : (rest.takeWhile (fun q => q.1 == d)).filter (fun p => p.1 == d) =
            rest.takeWhile (fun q => q.1 == d) := by
          rw [List.filter_eq_self]
          intro a ha
          simp [hBmem a ha]
        have h2 : (rest.dropWhile (fun q => q.1 == d)).filter (fun p => p.1 == d) = [] := by
          rw [List.filter_eq_nil_iff]
          intro a ha
          have := hRmem a ha
          simp
          omega
        rw [h1, h2, List.append_nil]
      -- the dest list decomposes
      have hfst : sortedDedup (((d, s) :: rest).map (fun p => p.1)) =
          d :: sortedDedup ((rest.dropWhile (fun q => q.1 == d)).map (fun p => p.1)) := by
        symm
        refine sortedDedup_unique ?_ ?_
        · refine List.pairwise_cons.2 ⟨?_, sortedDedup_sorted _⟩
          intro b hb
          rw [sortedDedup_mem] at hb
          obtain ⟨q, hq, rfl⟩ := List.mem_map.1 hb
          exact hRmem q hq
        · intro a
          simp only [List.mem_cons, sortedDedup_mem, List.map_cons]
          conv_rhs => rw [← hsplit]
          rw [List.map_append, List.mem_append]
          constructor
          · rintro (rfl | h)
            · exact Or.inl rfl
            · exact Or.inr (Or.inr h)
          · rintro (rfl | h | h)
            · exact Or.inl rfl
            · obtain ⟨q, hq, rfl⟩ := List.mem_map.1 h
              exact Or.inl (hBmem q hq)
            · exact Or.inr h
      -- sources of the head dest
      have hsrc : specSources ((d, s) :: rest) d =
          s :: dedupAdj (some s) ((rest.takeWhile (fun q => q.1 == d)).map (fun q => q.2)) := by
        unfold specSources
        rw [hfl, List.map_cons]
        exact (cons_dedupAdj_eq_sortedDedup hsndSorted hsndLb).symm
      -- sources of later dests ignore the head run
      have htail : ∀ d0 ∈ sortedDedup ((rest.dropWhile (fun q => q.1 == d)).map (fun p => p.1)),
          specSources ((d, s) :: rest) d0 = specSources (rest.dropWhile (fun q => q.1 == d)) d0 := by
        intro d0 hd0
        rw [sortedDedup_mem] at hd0
        obtain ⟨q0, hq0, rfl⟩ := List.mem_map.1 hd0
        have hgt : d < q0.1 := hRmem q0 hq0
        unfold specSources
        congr 1
        congr 1
        rw [List.filter_cons]
        have hne : ((d, s).1 == q0.1) = false := by simp; omega
        rw [hne]
        simp only [Bool.false_eq_true, if_false]
        conv_lhs => rw [← hsplit]
        rw [List.filter_append]
        have h1 : (rest.takeWhile (fun q => q.1 == d)).filter (fun p => p.1 == q0.1) = [] := by
          rw [List.filter_eq_nil_iff]
          intro a ha
          have := hBmem a ha
          simp
          omega
        rw [h1, List.nil_append]
      -- assemble
      rw [hgp]
      unfold specAdj
      rw [hfst, List.map_cons, ← hsrc]
      congr 1
      have hrw : (sortedDedup ((rest.dropWhile (fun q => q.1 == d)).map (fun p => p.1))).map
            (fun d0 => (d0, specSources ((d, s) :: rest) d0)) =
          (sortedDedup ((rest.dropWhile (fun q => q.1 == d)).map (fun p => p.1))).map
            (fun d0 => (d0, specSources (rest.dropWhile (fun q => q.1 == d)) d0)) :=
        List.map_congr_left (fun d0 hd0 => by rw [htail d0 hd0])
      rw [hrw]
      have hlen : (rest.dropWhile (fun q => q.1 == d)).length < n := by
        rw [← hn]
        simp only [List.length_cons]
        exact Nat.lt_succ_of_le (List.dropWhile_sublist _).length_le
      exact ih _ hlen _ rfl hRpair

/-! ### The shuffle: what reaches each reducer. -/

/-- The kept records in (source, dest) order, as the splitter writes them. -/
def keptRecs (mind maxd : Int) (lines : List Line) : List (Nat × Nat) :=
  lines.filterMap (fun l =>
    match l with
    | Line.edge s d =>
        if 0 ≤ s ∧ 0 ≤ d then
          if keepDest mind maxd d then some (s.toNat, d.toNat) else none
        else none
    | Line.bad => none)

theorem keptPairs_eq_map_keptRecs (mind maxd : Int) (lines : List Line) :
    keptPairs mind maxd lines = (keptRecs mind maxd lines).map (fun e => (e.2, e.1)) := by
  unfold keptPairs keptRecs
  induction lines with
  | nil => rfl
  | cons l rest ih =>
    rw [List.filterMap_cons, List.filterMap_cons]
    cases l with
    | bad => exact ih
    | edge s d =>
      by_cases h1 : 0 ≤ s ∧ 0 ≤ d
      · by_cases h2 : keepDest mind maxd d
        · simp only [if_pos h1, if_pos h2]
          rw [List.map_cons, ih]
        · simp only [if_pos h1, if_neg h2]
          exact ih
      · simp only [if_neg h1]
        exact ih

/-- The canonical pair list of partition r: the kept pairs whose dest hashes
to r. -/
def partPairs (R : Nat) (ps : List (Nat × Nat)) (r : Nat) : List (Nat × Nat) :=
  ps.filter (fun p => p.1 % R == r)

theorem sum_range_single (k c : Nat) :
    ∀ M, ((List.range M).map (fun i => if k = i then c else 0)).sum =
      if k < M then c else 0 := by
  intro M
  induction M with
  | zero => simp
  | succ m ih =>
    rw [List.range_succ, List.map_append, List.sum_append, ih]
    simp only [List.map_cons, List.map_nil, List.sum_cons, List.sum_nil]
    by_cases h1 : k < m
    · have h2 : k ≠ m := by omega
      have h3 : k < m + 1 := by omega
      simp [h1, h2, h3]
    · by_cases h2 : k = m
      · subst h2
        simp [h1]
      · have h3 : ¬(k < m + 1) := by omega
        simp [h1, h2, h3]

theorem flatMap_const_nil {α β : Type} (I : List β) :
    (I.flatMap (fun _ => ([] : List α))) = [] := by
  induction I with
  | nil => rfl
  | cons i t ih => rw [List.flatMap_cons, ih]; rfl

theorem flatMap_congr_fun {α β : Type} (f g : β → List α) :
    ∀ (I : List β), (∀ i ∈ I, f i = g i) → I.flatMap f = I.flatMap g := by
  intro I
  induction I with
  | nil => intro _; rfl
  | cons i t ih =>
    intro h
    rw [List.flatMap_cons, List.flatMap_cons, h i (List.mem_cons_self i t),
      ih (fun j hj => h j (List.mem_cons_of_mem i hj))]

theorem flatMap_filter_cons_perm {α : Type} (k : Nat) (v : α) (t : List (Nat × α)) :
    ∀ (I : List Nat), k ∈ I → I.Nodup →
      (I.flatMap (fun i => ((k, v) :: t).filter (fun e => e.1 == i))).Perm
        ((k, v) :: I.flatMap (fun i => t.filter (fun e => e.1 == i))) := by
  intro I
  induction I with
  | nil => intro h _; simp at h
  | cons i I2 ih =>
    intro hmem hnd
    obtain ⟨hni, hnd2⟩ := List.nodup_cons.1 hnd
    rw [List.flatMap_cons, List.flatMap_cons]
    by_cases hik : k = i
    · have hcons : ((k, v) :: t).filter (fun e => e.1 == i) =
          (k, v) :: t.filter (fun e => e.1 == i) := by
        rw [List.filter_cons]
        simp [hik]
      rw [hcons]
      have hni2 : k ∉ I2 := by rw [hik]; exact hni
      have hrest : I2.flatMap (fun j => ((k, v) :: t).filter (fun e => e.1 == j)) =
          I2.flatMap (fun j => t.filter (fun e => e.1 == j)) := by
        refine flatMap_congr_fun _ _ _ ?_
        intro j hj
        rw [List.filter_cons]
        have hf : (k == j) = false := by
          simp only [beq_eq_false_iff_ne]
          intro h
          exact hni2 (h ▸ hj)
        rw [hf]
        simp
      rw [hrest]
      exact List.Perm.refl _
    · have hkI2 : k ∈ I2 := by
        rcases List.mem_cons.1 hmem with h | h
        · exact absurd h hik
        · exact h
      have hcons : ((k, v) :: t).filter (fun e => e.1 == i) =
          t.filter (fun e => e.1 == i) := by
        rw [List.filter_cons]
        have hf : (k == i) = false := by
          simp only [beq_eq_false_iff_ne]
          exact hik
        rw [hf]
        simp
      rw [hcons]
      refine ((List.Perm.append_left _ (ih hkI2 hnd2)).trans ?_)
      exact List.perm_middle

/-- Round-robin fibers reassemble: concatenating, over all segment indices,
the elements keyed with that index recovers a permutation of the keyed
list. -/
theorem flatMap_filter_key_perm {α : Type} (M : Nat) :
    ∀ (l : List (Nat × α)), (∀ e ∈ l, e.1 < M) →
      ((List.range M).flatMap (fun i => l.filter (fun e => e.1 == i))).Perm l := by
  intro l
  induction l with
  | nil =>
    intro _
    have h : (List.range M).flatMap (fun i => ([] : List (Nat × α)).filter (fun e => e.1 == i)) =
        (List.range M).flatMap (fun _ => ([] : List (Nat × α))) := by
      refine flatMap_congr_fun _ _ _ ?_
      intro i _
      rfl
    rw [h, flatMap_const_nil]
  | cons e t ih =>
    intro hk
    obtain ⟨k, v⟩ := e
    have h1 := flatMap_filter_cons_perm k v t (List.range M)
      (List.mem_range.2 (hk (k, v) (List.mem_cons_self _ _)))
      (List.nodup_range M)
    refine h1.trans ?_
    exact List.Perm.cons _ (ih (fun x hx => hk x (List.mem_cons_of_mem _ hx)))

theorem assignP_key_lt (M : Nat) (mind maxd : Int) (hM : 0 < M) :
    ∀ (lines : List Line) (j : Nat), ∀ e ∈ assignP M mind maxd lines j, e.1 < M := by
  intro lines
  induction lines with
  | nil => intro j e he; simp [assignP] at he
  | cons l rest ih =>
    intro j e he
    cases l with
    | bad => exact ih j e he
    | edge s d =>
      rw [assignP] at he
      split at he
      · split at he
        · rcases List.mem_cons.1 he with h | h
          · subst h; exact Nat.mod_lt j hM
          · exact ih (j + 1) e h
        · exact ih (j + 1) e he
      · exact ih j e he

theorem assignP_snd (M : Nat) (mind maxd : Int) :
    ∀ (lines : List Line) (j : Nat),
      (assignP M mind maxd lines j).map (fun e => e.2) = keptRecs mind maxd lines := by
  intro lines
  induction lines with
  | nil => intro j; rfl
  | cons l rest ih =>
    intro j
    cases l with
    | bad =>
      rw [assignP]
      conv_rhs => unfold keptRecs
      rw [List.filterMap_cons]
      have := ih j
      unfold keptRecs at this
      exact this
    | edge s d =>
      rw [assignP]
      conv_rhs => unfold keptRecs
      rw [List.filterMap_cons]
      by_cases h1 : 0 ≤ s ∧ 0 ≤ d
      · by_cases h2 : keepDest mind maxd d
        · simp only [if_pos h1, if_pos h2]
          rw [List.map_cons]
          have := ih (j + 1)
          unfold keptRecs at this
          rw [this]
        · simp only [if_pos h1, if_neg h2]
          have := ih (j + 1)
          unfold keptRecs at this
          exact this
      · simp only [if_neg h1]
        have := ih j
        unfold keptRecs at this
        exact this

/-- The pairs a reducer accumulates are a permutation of the canonical pairs
of its partition. -/
theorem pairsAtRedP_perm (M R : Nat) (mind maxd : Int) (lines : List Line)
    (r : Nat) (hM : 0 < M) :
    (pairsAtRedP M R mind maxd lines r).Perm
      (partPairs R (keptPairs mind maxd lines) r) := by
  have hA := assignP_key_lt M mind maxd hM lines 0
  have hperm := flatMap_filter_key_perm M (assignP M mind maxd lines 0) hA
  have h1 : pairsAtRedP M R mind maxd lines r =
      ((((List.range M).flatMap (fun m => (assignP M mind maxd lines 0).filter
          (fun e => e.1 == m))).map (fun e => e.2)).filter
        (fun e => e.2 % R == r)).map (fun e => (e.2, e.1)) := by
    unfold pairsAtRedP mapperPairsP segP
    rw [List.map_flatMap, List.filter_flatMap, List.map_flatMap]
  have h2 : partPairs R (keptPairs mind maxd lines) r =
      ((((assignP M mind maxd lines 0).map (fun e => e.2)).filter
        (fun e => e.2 % R == r)).map (fun e => (e.2, e.1))) := by
    unfold partPairs
    rw [keptPairs_eq_map_keptRecs, List.filter_map, assignP_snd M mind maxd lines 0]
    rfl
  rw [h1, h2]
  exact ((hperm.map (fun e => e.2)).filter (fun e => e.2 % R == r)).map (fun e => (e.2, e.1))

/-! ### The reducer outputs. -/

/-- Adjacency groups produced by reducer r of findsp (`reducer_process`):
sort the accumulated pairs, then group and dedup. -/
def redGroupsP (M R : Nat) (mind maxd : Int) (lines : List Line) (r : Nat) :
    List (Nat × List Nat) :=
  groupPairs (sortPairs (pairsAtRedP M R mind maxd lines r))

/-- The (dest, unique-source-count) emissions of reducer r, in emission
order. -/
def redCountsP (M R : Nat) (mind maxd : Int) (lines : List Line) (r : Nat) :
    List (Nat × Nat) :=
  (redGroupsP M R mind maxd lines r).map (fun g => (g.1, g.2.length))

theorem redGroupsP_eq (M R : Nat) (mind maxd : Int) (lines : List Line) (r : Nat)
    (hM : 0 < M) :
    redGroupsP M R mind maxd lines r =
      specAdj (partPairs R (keptPairs mind maxd lines) r) := by
  unfold redGroupsP
  rw [groupPairs_eq_specAdj _ (sortPairs_sorted _)]
  exact specAdj_congr ((sortPairs_perm _).trans (pairsAtRedP_perm M R mind maxd lines r hM))

/-! ### Membership characterizations of the specification views. -/

theorem mem_specAdj {ps : List (Nat × Nat)} {g : Nat × List Nat} :
    g ∈ specAdj ps ↔ g.1 ∈ ps.map (fun p => p.1) ∧ g.2 = specSources ps g.1 := by
  unfold specAdj
  constructor
  · intro h
    obtain ⟨d, hd, heq⟩ := List.mem_map.1 h
    rw [sortedDedup_mem] at hd
    obtain ⟨rfl⟩ : g = (d, specSources ps d) := heq.symm ▸ rfl
    exact ⟨hd, rfl⟩
  · rintro ⟨h1, h2⟩
    refine List.mem_map.2 ⟨g.1, ?_, ?_⟩
    · rw [sortedDedup_mem]; exact h1
    · exact Prod.ext rfl h2.symm

theorem specSources_part (R : Nat) (ps : List (Nat × Nat)) {d r : Nat} (hd : d % R = r) :
    specSources (partPairs R ps r) d = specSources ps d := by
  unfold specSources partPairs
  congr 1
  congr 1
  rw [List.filter_filter]
  refine List.filter_congr ?_
  intro a _
  by_cases h : a.1 = d
  · simp [h, hd]
  · simp [h]

theorem mem_dests_iff_mem_part {R : Nat} {ps : List (Nat × Nat)} {d : Nat} :
    d ∈ (partPairs R ps (d % R)).map (fun p => p.1) ↔ d ∈ ps.map (fun p => p.1) := by
  constructor
  · intro h
    obtain ⟨p, hp, rfl⟩ := List.mem_map.1 h
    exact List.mem_map.2 ⟨p, (List.mem_filter.1 hp).1, rfl⟩
  · intro h
    obtain ⟨p, hp, rfl⟩ := List.mem_map.1 h
    refine List.mem_map.2 ⟨p, List.mem_filter.2 ⟨hp, by simp⟩, rfl⟩

theorem dest_mod_of_mem_part {R r : Nat} {ps : List (Nat × Nat)} {p : Nat × Nat}
    (h : p ∈ partPairs R ps r) : p.1 % R = r := by
  have := (List.mem_filter.1 h).2
  simpa using this

theorem mem_specCounts {ps : List (Nat × Nat)} {e : Nat × Nat} :
    e ∈ specCounts ps ↔ e.1 ∈ ps.map (fun p => p.1) ∧
      e.2 = (specSources ps e.1).length := by
  unfold specCounts
  constructor
  · intro h
    obtain ⟨g, hg, heq⟩ := List.mem_map.1 h
    obtain ⟨h1, h2⟩ := mem_specAdj.1 hg
    have he1 : e.1 = g.1 := by rw [← heq]
    have he2 : e.2 = g.2.length := by rw [← heq]
    exact ⟨he1 ▸ h1, by rw [he2, h2, he1]⟩
  · rintro ⟨h1, h2⟩
    refine List.mem_map.2 ⟨(e.1, specSources ps e.1), mem_specAdj.2 ⟨h1, rfl⟩, ?_⟩
    exact Prod.ext rfl h2.symm

theorem specAdj_key_sorted (ps : List (Nat × Nat)) :
    (specAdj ps).Pairwise (fun a b => a.1 < b.1) := by
  unfold specAdj
  rw [List.pairwise_map]
  exact sortedDedup_sorted _

theorem specCounts_key_sorted (ps : List (Nat × Nat)) :
    (specCounts ps).Pairwise (fun a b => a.1 < b.1) := by
  unfold specCounts
  rw [List.pairwise_map]
  exact specAdj_key_sorted ps

/-! ### Shared-memory slice: write/decode round trip. -/

/-- Total byte length of the formatted count lines of es. -/
def totalCountBytes (es : List (Nat × Nat)) : Nat :=
  (es.map (fun e => (countLine e).length)).sum

theorem shmWrite_fits (max : Nat) :
    ∀ (es : List (Nat × Nat)) (w : Nat), w + totalCountBytes es ≤ max →
      shmWrite max es w = (es.flatMap countLine, es) := by
  intro es
  induction es with
  | nil => intro w _; rfl
  | cons e rest ih =>
    intro w hle
    unfold totalCountBytes at hle
    rw [List.map_cons, List.sum_cons] at hle
    have h1 : w + (countLine e).length ≤ max := by omega
    have h2 : w + (countLine e).length + totalCountBytes rest ≤ max := by
      unfold totalCountBytes; omega
    rw [shmWrite, if_pos h1, ih _ h2]
    rw [List.flatMap_cons]

theorem shmWrite_snd_sublist (max : Nat) :
    ∀ (es : List (Nat × Nat)) (w : Nat), (shmWrite max es w).2.Sublist es := by
  intro es
  induction es with
  | nil => intro w; simp [shmWrite]
  | cons e rest ih =>
    intro w
    rw [shmWrite]
    split
    · exact (ih _).cons₂ e
    · exact (ih w).cons e

theorem shmWrite_fst_eq (max : Nat) :
    ∀ (es : List (Nat × Nat)) (w : Nat),
      (shmWrite max es w).1 = (shmWrite max es w).2.flatMap countLine := by
  intro es
  induction es with
  | nil => intro w; rfl
  | cons e rest ih =>
    intro w
    rw [shmWrite]
    split
    · rw [List.flatMap_cons]  -- hmm goal shape
      rw [← ih]
    · exact ih w

theorem shmWrite_all_iff_aux (max : Nat) :
    ∀ (es : List (Nat × Nat)) (w : Nat),
      (shmWrite max es w).2 = es ↔ (es = [] ∨ w + totalCountBytes es ≤ max) := by
  intro es
  induction es with
  | nil =>
    intro w
    simp [shmWrite]
  | cons e rest ih =>
    intro w
    rw [shmWrite]
    unfold totalCountBytes
    rw [List.map_cons, List.sum_cons]
    split
    · rename_i hfit
      show (e :: (shmWrite max rest (w + (countLine e).length)).2 = e :: rest) ↔ _
      constructor
      · intro h
        have h2 : (shmWrite max rest (w + (countLine e).length)).2 = rest :=
          (List.cons_injective.eq_iff).1 h
        rcases (ih _).1 h2 with h3 | h3
        · subst h3
          right
          simpa using hfit
        · right
          unfold totalCountBytes at h3
          omega
      · intro h
        have h2 : (shmWrite max rest (w + (countLine e).length)).2 = rest := by
          refine (ih _).2 ?_
          rcases h with h | h
          · simp at h
          · by_cases hr : rest = []
            · exact Or.inl hr
            · right
              unfold totalCountBytes
              omega
        rw [h2]
    · rename_i hnofit
      constructor
      · intro h
        have hsub := shmWrite_snd_sublist max rest w
        have hlen := hsub.length_le
        rw [h] at hlen
        simp at hlen
      · intro h
        rcases h with h | h
        · simp at h
        · omega

/-- With the initial write offset 0 (as `reducer_process` starts), every
entry is written iff the formatted lines fit the slice. -/
theorem shmWrite_all_iff (max : Nat) (es : List (Nat × Nat)) :
    (shmWrite max es 0).2 = es ↔ totalCountBytes es ≤ max := by
  rw [shmWrite_all_iff_aux]
  constructor
  · intro h
    rcases h with h | h
    · subst h; simp [totalCountBytes]
    · omega
  · intro h
    right
    omega

theorem splitOnNl_append {a : List Nat} (ha : ∀ b ∈ a, b ≠ 10) (rest : List Nat) :
    splitOnNl (a ++ 10 :: rest) = a :: splitOnNl rest := by
  induction a with
  | nil =>
    rw [List.nil_append, splitOnNl, if_pos rfl]
  | cons b t ih =>
    have hb : b ≠ 10 := ha b (List.mem_cons_self b t)
    rw [List.cons_append, splitOnNl, if_neg hb]
    rw [ih (fun x hx => ha x (List.mem_cons_of_mem b hx))]

theorem takeWhile_all {p : Nat → Bool} :
    ∀ {l : List Nat}, (∀ b ∈ l, p b = true) → l.takeWhile p = l := by
  intro l
  induction l with
  | nil => intro _; rfl
  | cons b t ih =>
    intro h
    rw [List.takeWhile_cons, if_pos (h b (List.mem_cons_self b t))]
    rw [ih (fun x hx => h x (List.mem_cons_of_mem b hx))]

theorem takeWhile_append_stop {p : Nat → Bool} {xs : List Nat}
    (hxs : ∀ b ∈ xs, p b = true) {y : Nat} (hy : p y = false) (rest : List Nat) :
    (xs ++ y :: rest).takeWhile p = xs := by
  induction xs with
  | nil =>
    rw [List.nil_append, List.takeWhile_cons, hy]
    simp
  | cons b t ih =>
    rw [List.cons_append, List.takeWhile_cons, if_pos (hxs b (List.mem_cons_self b t))]
    rw [ih (fun x hx => hxs x (List.mem_cons_of_mem b hx))]

theorem dropWhile_append_stop {p : Nat → Bool} {xs : List Nat}
    (hxs : ∀ b ∈ xs, p b = true) {y : Nat} (hy : p y = false) (rest : List Nat) :
    (xs ++ y :: rest).dropWhile p = y :: rest := by
  induction xs with
  | nil =>
    rw [List.nil_append, List.dropWhile_cons, hy]
    simp
  | cons b t ih =>
    rw [List.cons_append, List.dropWhile_cons, if_pos (hxs b (List.mem_cons_self b t))]
    rw [ih (fun x hx => hxs x (List.mem_cons_of_mem b hx))]

theorem dropWhile_head_false {p : Nat → Bool} {l : List Nat} (h : ∀ b ∈ l, p b = false)
    : l.dropWhile p = l := by
  cases l with
  | nil => rfl
  | cons b t =>
    rw [List.dropWhile_cons, h b (List.mem_cons_self b t)]
    simp

theorem digit_not_ws {b : Nat} (h : isDigitByte b = true) : isWsByte b = false := by
  unfold isDigitByte at h
  unfold isWsByte
  simp only [Bool.and_eq_true, decide_eq_true_eq] at h
  simp only [Bool.or_eq_false_iff, decide_eq_false_iff_not]
  omega

theorem dropWhile_all {p : Nat → Bool} :
    ∀ {l : List Nat}, (∀ b ∈ l, p b = true) → l.dropWhile p = [] := by
  intro l
  induction l with
  | nil => intro _; rfl
  | cons b t ih =>
    intro h
    rw [List.dropWhile_cons, if_pos (h b (List.mem_cons_self b t))]
    exact ih (fun x hx => h x (List.mem_cons_of_mem b hx))

theorem natBytes_isEmpty_false (n : Nat) : (natBytes n).isEmpty = false := by
  cases hn : natBytes n with
  | nil => exact absurd hn (natBytes_ne_nil n)
  | cons c t => rfl

theorem dropWhile_ws_natBytes (n : Nat) (rest : List Nat) :
    (natBytes n ++ rest).dropWhile isWsByte = natBytes n ++ rest := by
  obtain ⟨c, t, hct⟩ : ∃ c t, natBytes n = c :: t := by
    cases hn : natBytes n with
    | nil => exact absurd hn (natBytes_ne_nil n)
    | cons c t => exact ⟨c, t, rfl⟩
  rw [hct, List.cons_append, List.dropWhile_cons,
    digit_not_ws (natBytes_digits n c (by rw [hct]; exact List.mem_cons_self c t))]
  simp

theorem parseNatTok_pre (a : Nat) (rest : List Nat) :
    parseNatTok (natBytes a ++ 32 :: rest) = some (a, 32 :: rest) := by
  unfold parseNatTok
  rw [dropWhile_ws_natBytes]
  rw [takeWhile_append_stop (natBytes_digits a) (by decide) rest]
  rw [dropWhile_append_stop (natBytes_digits a) (by decide) rest]
  rw [if_neg (by rw [natBytes_isEmpty_false a]; exact Bool.false_ne_true)]
  rw [decDigits_natBytes]

theorem parseNatTok_tail (b : Nat) :
    parseNatTok (32 :: natBytes b) = some (b, []) := by
  unfold parseNatTok
  have h1 : (32 :: natBytes b).dropWhile isWsByte = natBytes b := by
    rw [List.dropWhile_cons]
    have h32 : isWsByte 32 = true := by decide
    rw [h32, if_pos rfl]
    have := dropWhile_ws_natBytes b []
    rw [List.append_nil] at this
    exact this
  rw [h1, takeWhile_all (natBytes_digits b), dropWhile_all (natBytes_digits b)]
  rw [if_neg (by rw [natBytes_isEmpty_false b]; exact Bool.false_ne_true)]
  rw [decDigits_natBytes]

/-- `sscanf("%u %u")` recovers the two values from a formatted count line
(without its trailing newline). -/
theorem parseCountLine_format (a b : Nat) :
    parseCountLine (natBytes a ++ 32 :: natBytes b) = some (a, b) := by
  unfold parseCountLine
  simp only [parseNatTok_pre, parseNatTok_tail]

theorem countLine_split (e : Nat × Nat) :
    countLine e = (natBytes e.1 ++ 32 :: natBytes e.2) ++ [10] := by
  unfold countLine
  simp

theorem countLine_body_ne_nl (e : Nat × Nat) :
    ∀ b ∈ natBytes e.1 ++ 32 :: natBytes e.2, b ≠ 10 := by
  intro b hb
  rcases List.mem_append.1 hb with h | h
  · have := natBytes_digits e.1 b h
    unfold isDigitByte at this
    simp only [Bool.and_eq_true, decide_eq_true_eq] at this
    omega
  · rcases List.mem_cons.1 h with h2 | h2
    · omega
    · have := natBytes_digits e.2 b h2
      unfold isDigitByte at this
      simp only [Bool.and_eq_true, decide_eq_true_eq] at this
      omega

/-- Decoding a concatenation of formatted count lines recovers exactly the
entries, in order: the text round trip through the shared-memory region is
lossless. -/
theorem decodeRegion_flatMap (es : List (Nat × Nat)) :
    decodeRegion (es.flatMap countLine) = es := by
  induction es with
  | nil => rfl
  | cons e rest ih =>
    rw [List.flatMap_cons]
    unfold decodeRegion
    rw [countLine_split e, List.append_assoc, List.cons_append, List.nil_append]
    rw [splitOnNl_append (countLine_body_ne_nl e)]
    rw [List.filterMap_cons]
    rw [parseCountLine_format]
    unfold decodeRegion at ih
    rw [ih]

/-! ### OUT2 of findsp. -/

/-- The bytes reducer r leaves in its shared-memory slice. -/
def shmRegionP (shmsize M R : Nat) (mind maxd : Int) (lines : List Line) (r : Nat) :
    List Nat :=
  (shmWrite (regionSize shmsize R) (redCountsP M R mind maxd lines r) 0).1

/-- The (dest, count) records of OUT2: `process_shared_memory` parses every
region in reducer order, concatenates, and sorts by dest. -/
def out2RecordsP (shmsize M R : Nat) (mind maxd : Int) (lines : List Line) :
    List (Nat × Nat) :=
  sortByDest ((List.range R).flatMap
    (fun r => decodeRegion (shmRegionP shmsize M R mind maxd lines r)))

/-- OUT2 as bytes ("%u %u\n" per record). -/
def out2BytesP (shmsize M R : Nat) (mind maxd : Int) (lines : List Line) : List Nat :=
  countFile (out2RecordsP shmsize M R mind maxd lines)

theorem sortByDest_perm (l : List (Nat × Nat)) : (sortByDest l).Perm l :=
  List.perm_insertionSort destLe l

theorem sortByDest_sorted (l : List (Nat × Nat)) : (sortByDest l).Sorted destLe :=
  List.sorted_insertionSort destLe l

theorem pairwise_flatMap {α β : Type} (Rl : α → α → Prop) (f : β → List α) :
    ∀ (I : List β), I.Pairwise (fun i j => ∀ x ∈ f i, ∀ y ∈ f j, Rl x y) →
      (∀ i ∈ I, (f i).Pairwise Rl) → (I.flatMap f).Pairwise Rl := by
  intro I
  induction I with
  | nil => intro _ _; simp
  | cons i t ih =>
    intro hcross hin
    rw [List.flatMap_cons]
    rw [List.pairwise_append]
    obtain ⟨hhd, htl⟩ := List.pairwise_cons.1 hcross
    refine ⟨hin i (List.mem_cons_self i t), ih htl
      (fun j hj => hin j (List.mem_cons_of_mem i hj)), ?_⟩
    intro x hx y hy
    obtain ⟨j, hj, hyj⟩ := List.mem_flatMap.1 hy
    exact hhd j hj x hx y hyj

/-- Every decoded region is exactly the spec counts of its partition, when
the formatted lines fit the slice. -/
theorem decode_shmRegionP_eq (shmsize M R : Nat) (mind maxd : Int) (lines : List Line)
    (r : Nat) (hM : 0 < M)
    (hcap : totalCountBytes (specCounts (partPairs R (keptPairs mind maxd lines) r))
      ≤ regionSize shmsize R) :
    decodeRegion (shmRegionP shmsize M R mind maxd lines r) =
      specCounts (partPairs R (keptPairs mind maxd lines) r) := by
  have hcounts : redCountsP M R mind maxd lines r =
      specCounts (partPairs R (keptPairs mind maxd lines) r) := by
    unfold redCountsP specCounts
    rw [redGroupsP_eq M R mind maxd lines r hM]
  unfold shmRegionP
  rw [hcounts]
  have hall : (shmWrite (regionSize shmsize R)
      (specCounts (partPairs R (keptPairs mind maxd lines) r)) 0).2 =
        specCounts (partPairs R (keptPairs mind maxd lines) r) :=
    (shmWrite_all_iff _ _).2 hcap
  rw [shmWrite_fst_eq, hall, decodeRegion_flatMap]

/-- Sorting the concatenation of the per-partition count views yields the
global count view: partitions cover every dest exactly once. -/
theorem sort_join_partCounts (R : Nat) (hR : 0 < R) (ps : List (Nat × Nat)) :
    sortByDest ((List.range R).flatMap (fun r => specCounts (partPairs R ps r))) =
      specCounts ps := by
  set J := (List.range R).flatMap (fun r => specCounts (partPairs R ps r)) with hJ
  have hmodr : ∀ r, ∀ x ∈ specCounts (partPairs R ps r), x.1 % R = r := by
    intro r x hx
    obtain ⟨h1, _⟩ := mem_specCounts.1 hx
    obtain ⟨p, hp, hfp⟩ := List.mem_map.1 h1
    rw [← hfp]
    exact dest_mod_of_mem_part hp
  have hJne : J.Pairwise (fun a b => a.1 ≠ b.1) := by
    refine pairwise_flatMap _ _ _ ?_ ?_
    · refine (List.pairwise_lt_range R).imp ?_
      intro i j hij x hx y hy
      have hxi := hmodr i x hx
      have hyj := hmodr j y hy
      intro heq
      rw [heq] at hxi
      omega
    · intro r _
      exact (specCounts_key_sorted _).imp (fun h => by omega)
  have hsorted : (sortByDest J).Pairwise (fun a b => a.1 < b.1) := by
    have h1 : (sortByDest J).Pairwise destLe := sortByDest_sorted J
    have h2 : (sortByDest J).Pairwise (fun a b => a.1 ≠ b.1) :=
      (List.Perm.pairwise_iff (by intro a b h hba; exact h hba.symm)
        (sortByDest_perm J)).2 hJne
    refine (h1.and h2).imp ?_
    intro a b hab
    have hle := hab.1
    unfold destLe at hle
    have hne := hab.2
    omega
  refine eq_of_key_sorted_of_mem_iff (fun e => e.1) _ _ hsorted
    (specCounts_key_sorted _) ?_
  intro x
  rw [(sortByDest_perm J).mem_iff, hJ, List.mem_flatMap]
  constructor
  · rintro ⟨r, hr, hx⟩
    obtain ⟨h1, h2⟩ := mem_specCounts.1 hx
    have hmod : x.1 % R = r := hmodr r x hx
    refine mem_specCounts.2 ⟨?_, ?_⟩
    · rw [← hmod] at h1
      exact mem_dests_iff_mem_part.1 h1
    · rw [h2]
      congr 1
      exact specSources_part R _ hmod
  · intro hx
    obtain ⟨h1, h2⟩ := mem_specCounts.1 hx
    refine ⟨x.1 % R, List.mem_range.2 (Nat.mod_lt _ hR), ?_⟩
    refine mem_specCounts.2 ⟨mem_dests_iff_mem_part.2 h1, ?_⟩
    rw [h2]
    congr 1
    exact (specSources_part R _ rfl).symm

/-- The count records of OUT2 are exactly the specification counts, provided
every reducer's formatted count lines fit its shared-memory slice. -/
theorem out2RecordsP_eq_specCounts (shmsize M R : Nat) (mind maxd : Int)
    (lines : List Line) (hM : 0 < M) (hR : 0 < R)
    (hcap : ∀ r < R,
      totalCountBytes (specCounts (partPairs R (keptPairs mind maxd lines) r))
        ≤ regionSize shmsize R) :
    out2RecordsP shmsize M R mind maxd lines =
      specCounts (keptPairs mind maxd lines) := by
  unfold out2RecordsP
  have hdec : ((List.range R).flatMap
      (fun r => decodeRegion (shmRegionP shmsize M R mind maxd lines r))) =
        ((List.range R).flatMap
          (fun r => specCounts (partPairs R (keptPairs mind maxd lines) r))) := by
    refine flatMap_congr_fun _ _ _ ?_
    intro r hr
    exact decode_shmRegionP_eq shmsize M R mind maxd lines r hM
      (hcap r (List.mem_range.1 hr))
  rw [hdec]
  exact sort_join_partCounts R hR (keptPairs mind maxd lines)

/-! ### findst (thread backend). -/

/-- Argument validation of findst main (lines 82-102): rejects M outside
[1,20], R outside [1,10], a MIND or MAXD that is neither -1 nor positive, and
an inverted non-sentinel range. -/
def validateT (M R mind maxd : Int) : Bool :=
  !(decide (M ≤ 0) || decide (20 < M)) &&
  (!(decide (R ≤ 0) || decide (10 < R)) &&
  (!(decide (mind ≠ -1) && decide (mind ≤ 0)) &&
  (!(decide (maxd ≠ -1) && decide (maxd ≤ 0)) &&
  !(decide (mind ≠ -1) && decide (maxd ≠ -1) && decide (maxd < mind)))))

/-- `findsp.c:validate_arguments` (lines 316-323): the body is an
unimplemented TODO stub that returns 0 (success) unconditionally, although
its header comment promises to check M ∈ [1,20], R ∈ [1,10], INFILE and
SHMSIZE and return -1 on error. -/
def validate_arguments (M R shmsize : Int) : Int := 0

/-- Split loop of findst main (lines 126-139): every line read by `getline`
is written verbatim to the split file at `current_split_file_index`, which
then advances by one modulo M.  No parsing, no filtering, no validation. -/
def assignT (M : Nat) : List Line → Nat → List (Nat × Line)
  | [], _ => []
  | l :: rest, j => (j, l) :: assignT M rest ((j + 1) % M)

/-- Content of findst split file `split-(i+1)` (0-based index i). -/
def segT (M : Nat) (lines : List Line) (i : Nat) : List Line :=
  ((assignT M lines 0).filter (fun e => e.1 == i)).map (fun e => e.2)

/-- C truncated remainder (sign follows the dividend), as `%` on long. -/
def cmod (a : Int) (b : Nat) : Int :=
  if 0 ≤ a then ((a.toNat % b : Nat) : Int) else -((((-a).toNat % b : Nat) : Int))

/-- Mapper loop of findst `run_mapper_thread` (lines 363-378): `fscanf` reads
records until its return value differs from 2, so the first malformed line
stops the loop and the rest of the segment is never processed.  A parsed
record whose dest passes the filter is emitted, reversed, tagged with spool
index `(d % R) + 1`.  (For d < 0 not a multiple of R that index is ≤ 0 and
the C program writes through a NULL or out-of-range FILE pointer - undefined
behavior; such runs are outside the model's claims.) -/
def mapperT (R : Nat) (mind maxd : Int) : List Line → List (Int × (Int × Int))
  | [] => []
  | Line.bad :: _ => []
  | Line.edge s d :: rest =>
      if keepDestT mind maxd d then
        (cmod d R + 1, (d, s)) :: mapperT R mind maxd rest
      else mapperT R mind maxd rest

/-- Pairs accumulated by findst reducer r (1-based), as Nat pairs (the values
are non-negative in every claim that uses this). -/
def pairsAtRedT (M R : Nat) (mind maxd : Int) (lines : List Line) (r : Nat) :
    List (Nat × Nat) :=
  (List.range M).flatMap (fun m =>
    ((mapperT R mind maxd (segT M lines m)).filter
      (fun e => e.1 == ((r : Nat) : Int))).map (fun e => (e.2.1.toNat, e.2.2.toNat)))

/-- Grouping loop of `run_reducer_thread` (findst lines 477-538): one pass
over the sorted pairs, carrying the current dest and the collected sources
most-recent-first (`current_sources[source_idx - 1]` is the head).  A source
equal to the most recently collected one is skipped; at each dest change and
after the last pair the collected sources are qsorted and the group is
emitted. -/
def rtGo : List (Nat × Nat) → Nat → List Nat → List (Nat × List Nat)
  | [], d, acc => [(d, sortNat acc.reverse)]
  | (d2, s) :: rest, d, acc =>
      if d2 = d then
        rtGo rest d (if acc.head? = some s then acc else s :: acc)
      else
        (d, sortNat acc.reverse) :: rtGo rest d2 [s]

/-- Adjacency groups emitted by a findst reducer: the first sorted pair
seeds `current_dest`, and its source is always collected (`source_idx` is 0
there). -/
def reduceGroupsT (ps : List (Nat × Nat)) : List (Nat × List Nat) :=
  match sortPairs ps with
  | [] => []
  | (d, s) :: rest => rtGo rest d [s]

/-- The (dest, unique-source-count) emissions of a findst reducer. -/
def redCountsT (ps : List (Nat × Nat)) : List (Nat × Nat) :=
  (reduceGroupsT ps).map (fun g => (g.1, g.2.length))

/-- The results-array write discipline of `run_reducer_thread` (lines
489-498, 527-536): an emission is stored while fewer than cap entries have
been stored, otherwise it is skipped with a warning and the run continues. -/
def sliceWriteT (cap : Nat) : List (Nat × Nat) → Nat → List (Nat × Nat)
  | [], _ => []
  | e :: rest, w =>
      if w < cap then e :: sliceWriteT cap rest (w + 1)
      else sliceWriteT cap rest w

/-- `results_capacity_per_reducer` of findst main (line 202). -/
def resultsCapT : Nat := 50000

/-- OUT2 records of findst: slices concatenated in reducer order 1..R, then
sorted by dest (main lines 284-307). -/
def out2RecordsT (M R : Nat) (mind maxd : Int) (lines : List Line) :
    List (Nat × Nat) :=
  sortByDest ((List.range R).flatMap
    (fun r => sliceWriteT resultsCapT (redCountsT (pairsAtRedT M R mind maxd lines (r + 1))) 0))

/-- The source-collection fold of the findst reducer. -/
def accFold (acc : List Nat) (xs : List Nat) : List Nat :=
  xs.foldl (fun a s => if a.head? = some s then a else s :: a) acc

theorem accFold_eq_dedupAdj :
    ∀ (xs acc : List Nat), accFold acc xs = (dedupAdj acc.head? xs).reverse ++ acc := by
  intro xs
  induction xs with
  | nil => intro acc; simp [accFold, dedupAdj]
  | cons s rest ih =>
    intro acc
    unfold accFold
    rw [List.foldl_cons]
    rw [dedupAdj]
    by_cases h : acc.head? = some s
    · rw [if_pos h, if_pos h.symm]
      exact ih acc
    · rw [if_neg h, if_neg (fun h2 => h h2.symm)]
      have := ih (s :: acc)
      unfold accFold at this
      rw [this]
      simp

theorem rtGo_split :
    ∀ (l : List (Nat × Nat)) (d : Nat) (acc : List Nat),
      rtGo l d acc =
        (d, sortNat ((accFold acc ((l.takeWhile (fun q => q.1 == d)).map (fun q => q.2))).reverse))
          :: (match l.dropWhile (fun q => q.1 == d) with
              | [] => []
              | (d2, s2) :: rest2 => rtGo rest2 d2 [s2]) := by
  intro l
  induction l with
  | nil =>
    intro d acc
    simp [rtGo, accFold]
  | cons hd rest ih =>
    intro d acc
    obtain ⟨d2, s⟩ := hd
    rw [rtGo, List.takeWhile_cons, List.dropWhile_cons]
    by_cases h1 : d2 = d
    · subst h1
      simp only [beq_self_eq_true, if_true]
      rw [ih d2 _]
      unfold accFold
      rw [List.map_cons, List.foldl_cons]
    · have hb : (d2 == d) = false := by simp [h1]
      rw [hb]
      simp only [Bool.false_eq_true, if_false, if_neg h1]
      rfl

/-- On sorted input, the findst grouping computes exactly the findsp
grouping: the per-group qsort is the identity because the collected sources
are already ascending. -/
theorem reduceGroupsT_eq (ps : List (Nat × Nat)) :
    reduceGroupsT ps = groupPairs (sortPairs ps) := by
  suffices h : ∀ (n : Nat) (l : List (Nat × Nat)), l.length = n → l.Pairwise pairLe →
      (match l with
       | [] => ([] : List (Nat × List Nat))
       | (d, s) :: rest => rtGo rest d [s]) = groupPairs l by
    unfold reduceGroupsT
    exact h (sortPairs ps).length (sortPairs ps) rfl (sortPairs_sorted ps)
  intro n
  induction n using Nat.strong_induction_on with
  | _ n ih =>
    intro l
    match l with
    | [] =>
      intro _ _
      rw [groupPairs]
    | (d, s) :: rest =>
      intro hn hs
      obtain ⟨hhd, h0⟩ := List.pairwise_cons.1 hs
      show rtGo rest d [s] = groupPairs ((d, s) :: rest)
      rw [rtGo_split, groupPairs, runScan_fst, runScan_snd]
      have hacc : accFold [s] ((rest.takeWhile (fun q => q.1 == d)).map (fun q => q.2)) =
          (dedupAdj (some s) ((rest.takeWhile (fun q => q.1 == d)).map (fun q => q.2))).reverse
            ++ [s] := by
        rw [accFold_eq_dedupAdj]
        rfl
      have hsndSorted : ((rest.takeWhile (fun q => q.1 == d)).map (fun q => q.2)).Pairwise
          (fun a b : Nat => a ≤ b) := by
        rw [List.pairwise_map]
        refine List.Pairwise.imp_of_mem ?_
          (List.Pairwise.sublist (List.takeWhile_sublist _) h0)
        intro a b ha hb hab
        have h1 : a.1 = d := by simpa using List.mem_takeWhile_imp ha
        have h2 : b.1 = d := by simpa using List.mem_takeWhile_imp hb
        unfold pairLe at hab
        omega
      have hsndLb : ∀ x ∈ (rest.takeWhile (fun q => q.1 == d)).map (fun q => q.2), s ≤ x := by
        intro x hx
        obtain ⟨q, hq, rfl⟩ := List.mem_map.1 hx
        have h1 : q.1 = d := by simpa using List.mem_takeWhile_imp hq
        have h2 := hhd q ((List.takeWhile_sublist _).subset hq)
        unfold pairLe at h2
        omega
      have hrev : (accFold [s] ((rest.takeWhile (fun q => q.1 == d)).map (fun q => q.2))).reverse =
          s :: dedupAdj (some s) ((rest.takeWhile (fun q => q.1 == d)).map (fun q => q.2)) := by
        rw [hacc]
        simp
      have hsorted : (s :: dedupAdj (some s)
          ((rest.takeWhile (fun q => q.1 == d)).map (fun q => q.2))).Pairwise
            (fun a b : Nat => a ≤ b) :=
        (dedupAdj_sorted_lt _ s hsndSorted hsndLb).imp (fun h => Nat.le_of_lt h)
      have hid : sortNat (s :: dedupAdj (some s)
          ((rest.takeWhile (fun q => q.1 == d)).map (fun q => q.2))) =
            s :: dedupAdj (some s) ((rest.takeWhile (fun q => q.1 == d)).map (fun q => q.2)) :=
        List.Sorted.insertionSort_eq hsorted
      rw [hrev, hid]
      congr 1
      match hdw : rest.dropWhile (fun q => q.1 == d) with
      | [] =>
        rw [hdw, groupPairs]
      | (d2, s2) :: rest2 =>
        rw [hdw]
        have hlen : ((d2, s2) :: rest2).length < n := by
          rw [← hn, ← hdw]
          simp only [List.length_cons]
          exact Nat.lt_succ_of_le (List.dropWhile_sublist _).length_le
        have hpair : ((d2, s2) :: rest2).Pairwise pairLe := by
          rw [← hdw]
          exact List.Pairwise.sublist (List.dropWhile_sublist _) h0
        exact ih _ hlen _ rfl hpair

/-- The capped results-array write stores exactly the first cap emissions. -/
theorem sliceWriteT_eq_take (cap : Nat) :
    ∀ (es : List (Nat × Nat)) (w : Nat), sliceWriteT cap es w = es.take (cap - w) := by
  intro es
  induction es with
  | nil => intro w; simp [sliceWriteT]
  | cons e rest ih =>
    intro w
    rw [sliceWriteT]
    by_cases h : w < cap
    · rw [if_pos h, ih (w + 1)]
      have h2 : cap - w = (cap - (w + 1)) + 1 := by omega
      rw [h2]
      rfl
    · rw [if_neg h, ih w]
      have h2 : cap - w = 0 := by omega
      rw [h2]
      simp

/-! ### findst shuffle: what reaches each reducer on well-formed input. -/

/-- The emission of the findst mapper for one parsed line. -/
def mapEmitT (R : Nat) (mind maxd : Int) : Line → Option (Int × (Int × Int))
  | Line.edge s d =>
      if keepDestT mind maxd d then some (cmod d R + 1, (d, s)) else none
  | Line.bad => none

theorem assignT_key_lt (M : Nat) :
    ∀ (lines : List Line) (j : Nat), j < M → ∀ e ∈ assignT M lines j, e.1 < M := by
  intro lines
  induction lines with
  | nil => intro j _ e he; simp [assignT] at he
  | cons l rest ih =>
    intro j hj e he
    rw [assignT] at he
    rcases List.mem_cons.1 he with h | h
    · subst h; exact hj
    · exact ih ((j + 1) % M) (Nat.mod_lt _ (by omega)) e h

theorem assignT_snd (M : Nat) :
    ∀ (lines : List Line) (j : Nat), (assignT M lines j).map (fun e => e.2) = lines := by
  intro lines
  induction lines with
  | nil => intro j; rfl
  | cons l rest ih =>
    intro j
    rw [assignT, List.map_cons, ih]

theorem mapperT_clean (R : Nat) (mind maxd : Int) :
    ∀ (seg : List Line), (∀ l ∈ seg, goodLine l = true) →
      mapperT R mind maxd seg = seg.filterMap (mapEmitT R mind maxd) := by
  intro seg
  induction seg with
  | nil => intro _; rfl
  | cons l rest ih =>
    intro h
    cases l with
    | bad =>
      exact absurd (h Line.bad (List.mem_cons_self _ _)) (by simp [goodLine])
    | edge s d =>
      rw [mapperT]
      by_cases hk : keepDestT mind maxd d
      · simp only [List.filterMap_cons, mapEmitT, if_pos hk]
        rw [ih (fun x hx => h x (List.mem_cons_of_mem _ hx))]
      · simp only [List.filterMap_cons, mapEmitT, if_neg hk]
        exact ih (fun x hx => h x (List.mem_cons_of_mem _ hx))

theorem flatMap_filterMap {α β γ : Type} (h : β → Option γ) (g : α → List β) :
    ∀ (l : List α), l.flatMap (fun m => (g m).filterMap h) = (l.flatMap g).filterMap h := by
  intro l
  induction l with
  | nil => rfl
  | cons m rest ih =>
    rw [List.flatMap_cons, List.flatMap_cons, List.filterMap_append, ih]

theorem mem_segT_sub {M : Nat} {lines : List Line} {m : Nat} {x : Line}
    (hx : x ∈ segT M lines m) : x ∈ lines := by
  unfold segT at hx
  obtain ⟨kv, hkv, rfl⟩ := List.mem_map.1 hx
  have h1 : kv ∈ assignT M lines 0 := (List.mem_filter.1 hkv).1
  have h2 : kv.2 ∈ (assignT M lines 0).map (fun e => e.2) := List.mem_map.2 ⟨kv, h1, rfl⟩
  rw [assignT_snd] at h2
  exact h2

theorem mapperChainT (R : Nat) (mind maxd : Int) (r : Nat) :
    ∀ (lines : List Line), (∀ l ∈ lines, goodLine l = true) →
      ((lines.filterMap (mapEmitT R mind maxd)).filter
        (fun e => e.1 == (((r + 1 : Nat) : Int)))).map
          (fun e => (e.2.1.toNat, e.2.2.toNat)) =
        partPairs R (keptPairs mind maxd lines) r := by
  intro lines
  induction lines with
  | nil => intro _; rfl
  | cons l rest ih =>
    intro h
    have hrest := fun x hx => h x (List.mem_cons_of_mem l hx)
    have ihr := ih hrest
    cases l with
    | bad =>
      exact absurd (h Line.bad (List.mem_cons_self _ _)) (by simp [goodLine])
    | edge s d =>
      have hgood := h (Line.edge s d) (List.mem_cons_self _ _)
      rw [goodLine] at hgood
      simp only [Bool.and_eq_true, decide_eq_true_eq] at hgood
      obtain ⟨hs, hd⟩ := hgood
      by_cases hk : keepDestT mind maxd d
      · have hk2 : keepDest mind maxd d = true := by
          rw [keepDest_eq_keepDestT]; exact hk
        have hcmod : cmod d R = ((d.toNat % R : Nat) : Int) := by
          unfold cmod
          rw [if_pos hd]
        have hcond : ((cmod d R + 1 == ((r + 1 : Nat) : Int))) =
            ((d.toNat % R : Nat) == r) := by
          rw [hcmod, Bool.eq_iff_iff, beq_iff_eq, beq_iff_eq]
          omega
        unfold partPairs keptPairs
        unfold partPairs keptPairs at ihr
        simp only [List.filterMap_cons, mapEmitT, hk, hk2, if_pos (And.intro hs hd),
          if_true]
        rw [List.filter_cons, List.filter_cons, hcond]
        by_cases hh : (d.toNat % R : Nat) = r
        · have hb : ((d.toNat % R : Nat) == r) = true := by simp [hh]
          rw [hb]
          simp only [if_true, List.map_cons]
          rw [ihr]
        · have hb : ((d.toNat % R : Nat) == r) = false := by simp [hh]
          rw [hb]
          simp only [Bool.false_eq_true, if_false]
          exact ihr
      · have hk2 : keepDest mind maxd d = false := by
          rw [keepDest_eq_keepDestT]
          simpa using hk
        unfold partPairs keptPairs
        unfold partPairs keptPairs at ihr
        simp only [List.filterMap_cons, mapEmitT, hk, hk2, if_pos (And.intro hs hd),
          Bool.false_eq_true, if_false]
        exact ihr

/-- On well-formed input, the pairs findst reducer r+1 accumulates are a
permutation of the canonical pairs of partition r. -/
theorem pairsAtRedT_perm (M R : Nat) (mind maxd : Int) (lines : List Line)
    (r : Nat) (hM : 0 < M) (hclean : ∀ l ∈ lines, goodLine l = true) :
    (pairsAtRedT M R mind maxd lines (r + 1)).Perm
      (partPairs R (keptPairs mind maxd lines) r) := by
  have h1 : pairsAtRedT M R mind maxd lines (r + 1) =
      ((((List.range M).flatMap (fun m => segT M lines m)).filterMap
        (mapEmitT R mind maxd)).filter (fun e => e.1 == (((r + 1 : Nat) : Int)))).map
          (fun e => (e.2.1.toNat, e.2.2.toNat)) := by
    unfold pairsAtRedT
    have h2 : ∀ m ∈ List.range M,
        ((mapperT R mind maxd (segT M lines m)).filter
          (fun e => e.1 == (((r + 1 : Nat) : Int)))).map
            (fun e => (e.2.1.toNat, e.2.2.toNat)) =
        (((segT M lines m).filterMap (mapEmitT R mind maxd)).filter
          (fun e => e.1 == (((r + 1 : Nat) : Int)))).map
            (fun e => (e.2.1.toNat, e.2.2.toNat)) := by
      intro m _
      rw [mapperT_clean R mind maxd _ (fun x hx => hclean x (mem_segT_sub hx))]
    rw [flatMap_congr_fun _ _ _ h2]
    rw [← flatMap_filterMap, List.filter_flatMap, List.map_flatMap]
  have hseg : (((List.range M).flatMap (fun m => segT M lines m))).Perm lines := by
    unfold segT
    have h3 : (List.range M).flatMap
        (fun m => ((assignT M lines 0).filter (fun e => e.1 == m)).map (fun e => e.2)) =
      ((List.range M).flatMap
        (fun m => (assignT M lines 0).filter (fun e => e.1 == m))).map (fun e => e.2) := by
      rw [List.map_flatMap]
    rw [h3]
    have h4 := flatMap_filter_key_perm M (assignT M lines 0)
      (assignT_key_lt M lines 0 hM)
    have h5 := h4.map (fun e => e.2)
    rw [assignT_snd] at h5
    exact h5
  rw [h1, ← mapperChainT R mind maxd r lines hclean]
  exact ((hseg.filterMap (mapEmitT R mind maxd)).filter _).map _

theorem specCounts_congr {ps qs : List (Nat × Nat)} (h : ps.Perm qs) :
    specCounts ps = specCounts qs := by
  unfold specCounts
  rw [specAdj_congr h]

/-- findst OUT2 equals the specification counts on well-formed input when no
reducer exceeds the 50000-entry results capacity. -/
theorem out2RecordsT_eq_specCounts (M R : Nat) (mind maxd : Int) (lines : List Line)
    (hM : 0 < M) (hR : 0 < R) (hclean : ∀ l ∈ lines, goodLine l = true)
    (hcap : ∀ r < R,
      (specCounts (partPairs R (keptPairs mind maxd lines) r)).length ≤ resultsCapT) :
    out2RecordsT M R mind maxd lines = specCounts (keptPairs mind maxd lines) := by
  unfold out2RecordsT
  have hdec : ∀ r ∈ List.range R,
      sliceWriteT resultsCapT (redCountsT (pairsAtRedT M R mind maxd lines (r + 1))) 0 =
        specCounts (partPairs R (keptPairs mind maxd lines) r) := by
    intro r hr
    have hcounts : redCountsT (pairsAtRedT M R mind maxd lines (r + 1)) =
        specCounts (partPairs R (keptPairs mind maxd lines) r) := by
      unfold redCountsT
      rw [reduceGroupsT_eq]
      rw [groupPairs_eq_specAdj _ (sortPairs_sorted _)]
      have := specAdj_congr ((sortPairs_perm _).trans
        (pairsAtRedT_perm M R mind maxd lines r hM hclean))
      rw [specCounts, this]
    rw [hcounts, sliceWriteT_eq_take]
    simp only [Nat.sub_zero]
    exact List.take_of_length_le (hcap r (List.mem_range.1 hr))
  rw [flatMap_congr_fun _ _ _ hdec]
  exact sort_join_partCounts R hR (keptPairs mind maxd lines)

/-! ### The R-way merge of `merge_output_files` (findsp lines 1107-1213).

Modelled at two levels: `mergeRecs` is the record-level selection loop (a
proof device), `mergeLoopP` below is the byte-level loop with the 256-byte
`fgets` line buffer, faithful to the C code. -/

/-- INT_MAX, the initial `min_dest` of the selection scan. -/
def intMax : Int := 2147483647

/-- The selection scan (findsp lines 1176-1184): over the reader dests
(`none` = reader at EOF), keep the first index whose dest is strictly below
the best so far, starting from INT_MAX. -/
def selectMinGo : List (Option Int) → Nat → Option Nat → Int → Option Nat
  | [], _, best, _ => best
  | o :: rest, i, best, bestd =>
      match o with
      | none => selectMinGo rest (i + 1) best bestd
      | some dv =>
          if dv < bestd then selectMinGo rest (i + 1) (some i) dv
          else selectMinGo rest (i + 1) best bestd

def selectMin (ds : List (Option Int)) : Option Nat := selectMinGo ds 0 none intMax

theorem selectMinGo_spec :
    ∀ (ds : List (Option Int)) (i : Nat) (best : Option Nat) (bestd : Int),
      (selectMinGo ds i best bestd = none →
        best = none ∧ ∀ o ∈ ds, ∀ dv : Int, o = some dv → ¬(dv < bestd)) ∧
      (∀ j, selectMinGo ds i best bestd = some j →
        (best = some j ∧ ∀ o ∈ ds, ∀ dv : Int, o = some dv → ¬(dv < bestd)) ∨
        (∃ k dv, j = i + k ∧ ds.get? k = some (some dv) ∧ dv < bestd ∧
          ∀ o ∈ ds, ∀ dv2 : Int, o = some dv2 → dv ≤ dv2)) := by
  intro ds
  induction ds with
  | nil =>
    intro i best bestd
    constructor
    · intro h
      exact ⟨h, by simp⟩
    · intro j h
      left
      exact ⟨h, by simp⟩
  | cons o rest ih =>
    intro i best bestd
    match o with
    | none =>
      rw [selectMinGo]
      constructor
      · intro h
        obtain ⟨h1, h2⟩ := (ih (i + 1) best bestd).1 h
        refine ⟨h1, ?_⟩
        intro o2 ho2 dv hdv
        rcases List.mem_cons.1 ho2 with h3 | h3
        · rw [h3] at hdv; exact absurd hdv (by simp)
        · exact h2 o2 h3 dv hdv
      · intro j h
        rcases (ih (i + 1) best bestd).2 j h with ⟨h1, h2⟩ | ⟨k, dv, hk, hget, hlt, hmin⟩
        · left
          refine ⟨h1, ?_⟩
          intro o2 ho2 dv hdv
          rcases List.mem_cons.1 ho2 with h3 | h3
          · rw [h3] at hdv; exact absurd hdv (by simp)
          · exact h2 o2 h3 dv hdv
        · right
          refine ⟨k + 1, dv, by omega, by simpa using hget, hlt, ?_⟩
          intro o2 ho2 dv2 hdv2
          rcases List.mem_cons.1 ho2 with h3 | h3
          · rw [h3] at hdv2; exact absurd hdv2 (by simp)
          · exact hmin o2 h3 dv2 hdv2
    | some dv0 =>
      rw [selectMinGo]
      by_cases hlt0 : dv0 < bestd
      · rw [if_pos hlt0]
        constructor
        · intro h
          obtain ⟨h1, _⟩ := (ih (i + 1) (some i) dv0).1 h
          exact absurd h1 (by simp)
        · intro j h
          rcases (ih (i + 1) (some i) dv0).2 j h with ⟨h1, h2⟩ | ⟨k, dv, hk, hget, hlt, hmin⟩
          · right
            have hj : j = i := (Option.some.inj h1).symm
            refine ⟨0, dv0, by omega, by simp, hlt0, ?_⟩
            intro o2 ho2 dv2 hdv2
            rcases List.mem_cons.1 ho2 with h3 | h3
            · rw [h3] at hdv2
              have h4 : dv0 = dv2 := Option.some.inj hdv2
              omega
            · have := h2 o2 h3 dv2 hdv2
              omega
          · right
            refine ⟨k + 1, dv, by omega, by simpa using hget, by omega, ?_⟩
            intro o2 ho2 dv2 hdv2
            rcases List.mem_cons.1 ho2 with h3 | h3
            · rw [h3] at hdv2
              have h4 : dv0 = dv2 := Option.some.inj hdv2
              omega
            · exact hmin o2 h3 dv2 hdv2
      · rw [if_neg hlt0]
        constructor
        · intro h
          obtain ⟨h1, h2⟩ := (ih (i + 1) best bestd).1 h
          refine ⟨h1, ?_⟩
          intro o2 ho2 dv hdv
          rcases List.mem_cons.1 ho2 with h3 | h3
          · rw [h3] at hdv
            have h4 : dv0 = dv := Option.some.inj hdv
            omega
          · exact h2 o2 h3 dv hdv
        · intro j h
          rcases (ih (i + 1) best bestd).2 j h with ⟨h1, h2⟩ | ⟨k, dv, hk, hget, hlt, hmin⟩
          · left
            refine ⟨h1, ?_⟩
            intro o2 ho2 dv hdv
            rcases List.mem_cons.1 ho2 with h3 | h3
            · rw [h3] at hdv
              have h4 : dv0 = dv := Option.some.inj hdv
              omega
            · exact h2 o2 h3 dv hdv
          · right
            refine ⟨k + 1, dv, by omega, by simpa using hget, hlt, ?_⟩
            intro o2 ho2 dv2 hdv2
            rcases List.mem_cons.1 ho2 with h3 | h3
            · rw [h3] at hdv2
              have h4 : dv0 = dv2 := Option.some.inj hdv2
              omega
            · exact hmin o2 h3 dv2 hdv2

theorem selectMin_none {ds : List (Option Int)}
    (hb : ∀ o ∈ ds, ∀ dv : Int, o = some dv → dv < intMax)
    (h : selectMin ds = none) : ∀ o ∈ ds, o = none := by
  obtain ⟨_, h2⟩ := (selectMinGo_spec ds 0 none intMax).1 h
  intro o ho
  match o with
  | none => rfl
  | some dv =>
    exact absurd (hb (some dv) ho dv rfl) (h2 (some dv) ho dv rfl)

theorem selectMin_some {ds : List (Option Int)} {j : Nat}
    (h : selectMin ds = some j) :
    ∃ dv, ds.get? j = some (some dv) ∧
      ∀ o ∈ ds, ∀ dv2 : Int, o = some dv2 → dv ≤ dv2 := by
  rcases (selectMinGo_spec ds 0 none intMax).2 j h with ⟨h1, _⟩ | ⟨k, dv, hk, hget, _, hmin⟩
  · exact absurd h1 (by simp)
  · exact ⟨dv, by rw [hk]; simpa using hget, hmin⟩

/-- Head dests of the record streams, as the reader dest array (`none` for
an exhausted stream). -/
def streamDests (streams : List (List (Nat × List Nat))) : List (Option Int) :=
  streams.map (fun l => l.head?.map (fun g => ((g.1 : Nat) : Int)))

theorem sum_length_set_lt (i : Nat) :
    ∀ (streams : List (List (Nat × List Nat))) (g : Nat × List Nat)
      (t : List (Nat × List Nat)), streams.get? i = some (g :: t) →
      (((streams.set i t).map List.length).sum < (streams.map List.length).sum) := by
  induction i with
  | zero =>
    intro streams g t h
    cases streams with
    | nil => simp at h
    | cons s rest =>
      have hs : s = g :: t := by simpa using h
      subst hs
      simp only [List.set_cons_zero, List.map_cons, List.sum_cons, List.length_cons]
      omega
  | succ i ih =>
    intro streams g t h
    cases streams with
    | nil => simp at h
    | cons s rest =>
      have h2 : rest.get? i = some (g :: t) := by simpa using h
      have := ih rest g t h2
      simp only [List.set_cons_succ, List.map_cons, List.sum_cons]
      omega

/-- Record-level view of the merge loop: repeatedly select the non-exhausted
stream with the smallest head dest, emit its head record, advance it. -/
def mergeRecs (streams : List (List (Nat × List Nat))) : List (Nat × List Nat) :=
  match hsel : selectMin (streamDests streams) with
  | none => []
  | some i =>
      match hget : streams.get? i with
      | none => []
      | some [] => []
      | some (g :: t) => g :: mergeRecs (streams.set i t)
termination_by (streams.map List.length).sum
decreasing_by
  exact sum_length_set_lt i streams g t hget

theorem join_set_perm (i : Nat) :
    ∀ (streams : List (List (Nat × List Nat))) (g : Nat × List Nat)
      (t : List (Nat × List Nat)), streams.get? i = some (g :: t) →
      streams.join.Perm (g :: (streams.set i t).join) := by
  induction i with
  | zero =>
    intro streams g t h
    cases streams with
    | nil => simp at h
    | cons s rest =>
      have hs : s = g :: t := by simpa using h
      subst hs
      simp
  | succ i ih =>
    intro streams g t h
    cases streams with
    | nil => simp at h
    | cons s rest =>
      have h2 : rest.get? i = some (g :: t) := by simpa using h
      have hrest := ih rest g t h2
      simp only [List.set_cons_succ, List.join_cons]
      refine (hrest.append_left s).trans ?_
      exact List.perm_middle

/-- Per-stream strict dest order plus pairwise-disjoint dests across streams:
the invariant the merge relies on. -/
def StreamsWf (streams : List (List (Nat × List Nat))) : Prop :=
  (∀ l ∈ streams, l.Pairwise (fun a b => a.1 < b.1)) ∧
  streams.Pairwise (fun l1 l2 => ∀ g1 ∈ l1, ∀ g2 ∈ l2, g1.1 ≠ g2.1)

theorem pairwise_set_of_imp {α : Type} {R : α → α → Prop} :
    ∀ (l : List α) (i : Nat) (a b : α), l.get? i = some a →
      (∀ c, R a c → R b c) → (∀ c, R c a → R c b) →
      l.Pairwise R → (l.set i b).Pairwise R := by
  intro l
  induction l with
  | nil => intro i a b h _ _ _; simp at h
  | cons s rest ih =>
    intro i a b h h1 h2 hp
    obtain ⟨hhd, htl⟩ := List.pairwise_cons.1 hp
    cases i with
    | zero =>
      have hs : s = a := by simpa using h
      subst hs
      rw [List.set_cons_zero]
      exact List.pairwise_cons.2 ⟨fun c hc => h1 c (hhd c hc), htl⟩
    | succ i =>
      have h3 : rest.get? i = some a := by simpa using h
      rw [List.set_cons_succ]
      refine List.pairwise_cons.2 ⟨?_, ih i a b h3 h1 h2 htl⟩
      intro c hc
      rcases List.mem_or_eq_of_mem_set hc with h4 | h4
      · exact hhd c h4
      · subst h4
        exact h2 s (hhd a (List.get?_mem h3))

theorem streamsWf_set {streams : List (List (Nat × List Nat))} {i : Nat}
    {g : Nat × List Nat} {t : List (Nat × List Nat)}
    (hget : streams.get? i = some (g :: t)) (hwf : StreamsWf streams) :
    StreamsWf (streams.set i t) := by
  obtain ⟨hsort, hdisj⟩ := hwf
  constructor
  · intro l hl
    rcases List.mem_or_eq_of_mem_set hl with h | h
    · exact hsort l h
    · subst h
      exact (List.pairwise_cons.1 (hsort _ (List.get?_mem hget))).2
  · refine pairwise_set_of_imp streams i (g :: t) t hget ?_ ?_ hdisj
    · intro c hc g1 hg1 g2 hg2
      exact hc g1 (List.mem_cons_of_mem g hg1) g2 hg2
    · intro c hc g1 hg1 g2 hg2
      exact hc g1 hg1 g2 (List.mem_cons_of_mem g hg2)

/-- Dest bound: every dest in every stream is below INT_MAX (guaranteed in
real runs because dests pass through `%d` int parsing). -/
def StreamsBounded (streams : List (List (Nat × List Nat))) : Prop :=
  ∀ l ∈ streams, ∀ g ∈ l, ((g.1 : Nat) : Int) < intMax

theorem streamsBounded_set {streams : List (List (Nat × List Nat))} {i : Nat}
    {g : Nat × List Nat} {t : List (Nat × List Nat)}
    (hget : streams.get? i = some (g :: t)) (hB : StreamsBounded streams) :
    StreamsBounded (streams.set i t) := by
  intro l hl x hx
  rcases List.mem_or_eq_of_mem_set hl with h | h
  · exact hB l h x hx
  · subst h
    exact hB _ (List.get?_mem hget) x (List.mem_cons_of_mem g hx)

theorem streamDests_bound {streams : List (List (Nat × List Nat))}
    (hB : StreamsBounded streams) :
    ∀ o ∈ streamDests streams, ∀ dv : Int, o = some dv → dv < intMax := by
  intro o ho dv hdv
  unfold streamDests at ho
  obtain ⟨l, hl, hlo⟩ := List.mem_map.1 ho
  rw [← hlo] at hdv
  match l, hl, hdv with
  | [], hl, hdv => simp at hdv
  | g :: t, hl, hdv =>
    have hgd : ((g.1 : Nat) : Int) = dv := by simpa using hdv
    rw [← hgd]
    exact hB _ hl g (List.mem_cons_self g t)

theorem streamDests_get {streams : List (List (Nat × List Nat))} {i : Nat} {dv : Int}
    (h : (streamDests streams).get? i = some (some dv)) :
    ∃ g t, streams.get? i = some (g :: t) ∧ ((g.1 : Nat) : Int) = dv := by
  unfold streamDests at h
  rw [List.get?_map] at h
  match hget : streams.get? i with
  | none => rw [hget] at h; simp at h
  | some l =>
    rw [hget] at h
    cases l with
    | nil => simp at h
    | cons g t =>
      refine ⟨g, t, rfl, ?_⟩
      simpa using h

theorem bound_join_set :
    ∀ (i : Nat) (streams : List (List (Nat × List Nat))) (g : Nat × List Nat)
      (t : List (Nat × List Nat)), streams.get? i = some (g :: t) →
      StreamsWf streams →
      (∀ o ∈ streamDests streams, ∀ dv2 : Int, o = some dv2 → ((g.1 : Nat) : Int) ≤ dv2) →
      ∀ x ∈ (streams.set i t).join, g.1 < x.1 := by
  intro i
  induction i with
  | zero =>
    intro streams g t h hwf hmin x hx
    cases streams with
    | nil => simp at h
    | cons s rest =>
      have hs : s = g :: t := by simpa using h
      subst hs
      obtain ⟨hsort, hdisj⟩ := hwf
      rw [List.set_cons_zero] at hx
      obtain ⟨l2, hl2, hxl2⟩ := List.mem_join.1 hx
      rcases List.mem_cons.1 hl2 with h2 | h2
      · subst h2
        have hgt := hsort _ (List.mem_cons_self _ _)
        exact (List.pairwise_cons.1 hgt).1 x hxl2
      · obtain ⟨h3, t3, hl3⟩ : ∃ h3 t3, l2 = h3 :: t3 := by
          cases l2 with
          | nil => simp at hxl2
          | cons a b => exact ⟨a, b, rfl⟩
        subst hl3
        have hminh : ((g.1 : Nat) : Int) ≤ ((h3.1 : Nat) : Int) := by
          refine hmin (some ((h3.1 : Nat) : Int)) ?_ _ rfl
          unfold streamDests
          refine List.mem_map.2 ⟨h3 :: t3, List.mem_cons_of_mem _ h2, rfl⟩
        have hsorted2 := hsort _ (List.mem_cons_of_mem _ h2)
        have hhx : h3.1 ≤ x.1 := by
          rcases List.mem_cons.1 hxl2 with h4 | h4
          · rw [h4]
          · exact Nat.le_of_lt ((List.pairwise_cons.1 hsorted2).1 x h4)
        have hne : g.1 ≠ x.1 :=
          (List.pairwise_cons.1 hdisj).1 _ h2 g (List.mem_cons_self _ _) x hxl2
        have hle : g.1 ≤ h3.1 := by exact_mod_cast hminh
        omega
  | succ i ih =>
    intro streams g t h hwf hmin x hx
    cases streams with
    | nil => simp at h
    | cons s rest =>
      have h2 : rest.get? i = some (g :: t) := by simpa using h
      obtain ⟨hsort, hdisj⟩ := hwf
      rw [List.set_cons_succ] at hx
      obtain ⟨l2, hl2, hxl2⟩ := List.mem_join.1 hx
      rcases List.mem_cons.1 hl2 with h3 | h3
      · subst h3
        obtain ⟨hs0, t0, hl0⟩ : ∃ hs0 t0, l2 = hs0 :: t0 := by
          cases l2 with
          | nil => simp at hxl2
          | cons a b => exact ⟨a, b, rfl⟩
        subst hl0
        have hminh : ((g.1 : Nat) : Int) ≤ ((hs0.1 : Nat) : Int) := by
          refine hmin (some ((hs0.1 : Nat) : Int)) ?_ _ rfl
          unfold streamDests
          exact List.mem_map.2 ⟨hs0 :: t0, List.mem_cons_self _ _, rfl⟩
        have hsorted0 := hsort _ (List.mem_cons_self _ _)
        have hhx : hs0.1 ≤ x.1 := by
          rcases List.mem_cons.1 hxl2 with h4 | h4
          · rw [h4]
          · exact Nat.le_of_lt ((List.pairwise_cons.1 hsorted0).1 x h4)
        have hne : x.1 ≠ g.1 :=
          (List.pairwise_cons.1 hdisj).1 _ (List.get?_mem h2) x hxl2 g
            (List.mem_cons_self _ _)
        have hle : g.1 ≤ hs0.1 := by exact_mod_cast hminh
        omega
      · refine ih rest g t h2 ⟨fun l hl => hsort l (List.mem_cons_of_mem _ hl),
          (List.pairwise_cons.1 hdisj).2⟩ ?_ x (List.mem_join.2 ⟨l2, h3, hxl2⟩)
        intro o ho dv2 hdv2
        refine hmin o ?_ dv2 hdv2
        unfold streamDests at ho ⊢
        rw [List.map_cons]
        exact List.mem_cons_of_mem _ ho

theorem join_eq_nil_of_all_nil {α : Type} :
    ∀ (ls : List (List α)), (∀ l ∈ ls, l = []) → ls.join = [] := by
  intro ls
  induction ls with
  | nil => intro _; rfl
  | cons l rest ih =>
    intro h
    have h1 := h l (List.mem_cons_self _ _)
    have h2 := ih (fun x hx => h x (List.mem_cons_of_mem _ hx))
    simp [h1, h2]

theorem mergeRecs_none {streams : List (List (Nat × List Nat))}
    (h : selectMin (streamDests streams) = none) : mergeRecs streams = [] := by
  rw [mergeRecs]
  split
  · rfl
  · simp_all

theorem mergeRecs_step {streams : List (List (Nat × List Nat))} {i : Nat}
    {g : Nat × List Nat} {t : List (Nat × List Nat)}
    (hsel : selectMin (streamDests streams) = some i)
    (hget : streams.get? i = some (g :: t)) :
    mergeRecs streams = g :: mergeRecs (streams.set i t) := by
  rw [mergeRecs]
  split
  · simp_all
  · rename_i i2 hsel2
    have hii : i2 = i := by
      rw [hsel] at hsel2
      exact (Option.some.inj hsel2).symm
    subst hii
    split
    · simp_all
    · simp_all
    · simp_all

theorem mergeRecs_perm :
    ∀ (n : Nat) (streams : List (List (Nat × List Nat))),
      (streams.map List.length).sum = n → StreamsBounded streams →
      (mergeRecs streams).Perm streams.join := by
  intro n
  induction n using Nat.strong_induction_on with
  | _ n ih =>
    intro streams hn hB
    cases hsel : selectMin (streamDests streams) with
    | none =>
      rw [mergeRecs_none hsel]
      have hall := selectMin_none (streamDests_bound hB) hsel
      have hjoin : streams.join = [] := by
        refine join_eq_nil_of_all_nil streams ?_
        intro l hl
        have h2 := hall ((l.head?).map (fun g => ((g.1 : Nat) : Int)))
          (List.mem_map.2 ⟨l, hl, rfl⟩)
        cases l with
        | nil => rfl
        | cons a b => simp at h2
      rw [hjoin]
    | some i =>
      obtain ⟨dv, hd, hmin⟩ := selectMin_some hsel
      obtain ⟨g, t, hget, hdv⟩ := streamDests_get hd
      rw [mergeRecs_step hsel hget]
      have hlt := sum_length_set_lt i streams _ _ hget
      rw [hn] at hlt
      refine List.Perm.trans ?_ (join_set_perm i streams _ _ hget).symm
      exact ((ih _ hlt _ rfl (streamsBounded_set hget hB)).cons _)

theorem mergeRecs_key_sorted :
    ∀ (n : Nat) (streams : List (List (Nat × List Nat))),
      (streams.map List.length).sum = n → StreamsWf streams → StreamsBounded streams →
      (mergeRecs streams).Pairwise (fun a b => a.1 < b.1) := by
  intro n
  induction n using Nat.strong_induction_on with
  | _ n ih =>
    intro streams hn hwf hB
    cases hsel : selectMin (streamDests streams) with
    | none =>
      rw [mergeRecs_none hsel]
      exact List.Pairwise.nil
    | some i =>
      obtain ⟨dv, hd, hmin⟩ := selectMin_some hsel
      obtain ⟨g, t, hget, hdv⟩ := streamDests_get hd
      rw [mergeRecs_step hsel hget]
      have hlt := sum_length_set_lt i streams _ _ hget
      rw [hn] at hlt
      refine List.pairwise_cons.2 ⟨?_, ih _ hlt _ rfl (streamsWf_set hget hwf)
        (streamsBounded_set hget hB)⟩
      intro x hx
      have hxmem : x ∈ (streams.set i t).join :=
        (mergeRecs_perm _ _ rfl (streamsBounded_set hget hB)).mem_iff.1 hx
      refine bound_join_set i streams g t hget hwf ?_ x hxmem
      intro o ho dv2 hdv2
      rw [hdv]
      exact hmin o ho dv2 hdv2

theorem mem_adj_part_mod {R r : Nat} {ps : List (Nat × Nat)} {g : Nat × List Nat}
    (h : g ∈ specAdj (partPairs R ps r)) : g.1 % R = r := by
  obtain ⟨h1, _⟩ := mem_specAdj.1 h
  obtain ⟨p, hp, hfp⟩ := List.mem_map.1 h1
  rw [← hfp]
  exact dest_mod_of_mem_part hp

/-- The R-way record merge of the per-partition adjacency views is the global
adjacency view. -/
theorem mergeRecs_partition (R : Nat) (hR : 0 < R) (ps : List (Nat × Nat))
    (hB : StreamsBounded ((List.range R).map (fun r => specAdj (partPairs R ps r)))) :
    mergeRecs ((List.range R).map (fun r => specAdj (partPairs R ps r))) = specAdj ps := by
  set streams := (List.range R).map (fun r => specAdj (partPairs R ps r)) with hstreams
  have hwf : StreamsWf streams := by
    constructor
    · intro l hl
      obtain ⟨r, _, rfl⟩ := List.mem_map.1 hl
      exact specAdj_key_sorted _
    · rw [hstreams, List.pairwise_map]
      refine (List.pairwise_lt_range R).imp ?_
      intro i j hij g1 hg1 g2 hg2
      have h1 := mem_adj_part_mod hg1
      have h2 := mem_adj_part_mod hg2
      intro heq
      rw [heq] at h1
      omega
  refine eq_of_key_sorted_of_mem_iff (fun g => g.1) _ _
    (mergeRecs_key_sorted _ streams rfl hwf hB) (specAdj_key_sorted ps) ?_
  intro x
  rw [(mergeRecs_perm _ streams rfl hB).mem_iff]
  constructor
  · intro hx
    obtain ⟨l, hl, hxl⟩ := List.mem_join.1 hx
    rw [hstreams] at hl
    obtain ⟨r, hr, rfl⟩ := List.mem_map.1 hl
    obtain ⟨h1, h2⟩ := mem_specAdj.1 hxl
    have hmod : x.1 % R = r := mem_adj_part_mod hxl
    refine mem_specAdj.2 ⟨?_, ?_⟩
    · rw [← hmod] at h1
      exact mem_dests_iff_mem_part.1 h1
    · rw [h2]
      exact specSources_part R _ hmod
  · intro hx
    obtain ⟨h1, h2⟩ := mem_specAdj.1 hx
    refine List.mem_join.2 ⟨specAdj (partPairs R ps (x.1 % R)), ?_, ?_⟩
    · rw [hstreams]
      exact List.mem_map.2 ⟨x.1 % R, List.mem_range.2 (Nat.mod_lt _ hR), rfl⟩
    · refine mem_specAdj.2 ⟨mem_dests_iff_mem_part.2 h1, ?_⟩
      rw [h2]
      exact (specSources_part R _ rfl).symm

/-! ### Byte-level merge (`merge_output_files`): 256-byte `fgets` buffer,
`"%d:"` destination parse, selection scan, `active_readers` bookkeeping. -/

/-- One `fgets(buf, n+1)` call on remaining bytes: read up to n bytes,
stopping after a newline.  Returns the chunk and the rest. -/
def takeChunk : Nat → List Nat → List Nat × List Nat
  | _, [] => ([], [])
  | 0, l => ([], l)
  | n + 1, b :: t =>
      if b = 10 then ([b], t)
      else ((b :: (takeChunk n t).1), (takeChunk n t).2)

/-- `parse_destination` (findsp lines 1072-1078): `sscanf("%d:")` - skip
whitespace, optional minus sign, a non-empty digit string; -1 when the digit
string is empty (conversion failure). -/
def parseDestB (l : List Nat) : Int :=
  if (l.dropWhile isWsByte).head? = some 45 then
    (if (((l.dropWhile isWsByte).tail).takeWhile isDigitByte).isEmpty then -1
     else -(decDigits (((l.dropWhile isWsByte).tail).takeWhile isDigitByte) : Int))
  else
    (if ((l.dropWhile isWsByte).takeWhile isDigitByte).isEmpty then -1
     else (decDigits ((l.dropWhile isWsByte).takeWhile isDigitByte) : Int))

/-- State of one `FileReader` (findsp lines 1060-1066). -/
structure RStateP where
  line : List Nat
  dest : Int
  eof : Bool
  rest : List Nat
deriving DecidableEq, Repr

/-- `read_next_line` (findsp lines 1084-1101): at EOF return 0; otherwise
`fgets` a chunk of at most 255 bytes, parse its leading destination, return
-1 on parse failure (the reader keeps eof = 0 and dest = -1) or 1. -/
def readNextP (s : RStateP) : Int × RStateP :=
  if s.eof then (0, s)
  else if s.rest.isEmpty then (0, { s with eof := true })
  else if parseDestB (takeChunk 255 s.rest).1 < 0 then
    (-1, ⟨(takeChunk 255 s.rest).1, parseDestB (takeChunk 255 s.rest).1, false,
      (takeChunk 255 s.rest).2⟩)
  else
    (1, ⟨(takeChunk 255 s.rest).1, parseDestB (takeChunk 255 s.rest).1, false,
      (takeChunk 255 s.rest).2⟩)

/-- The merge loop (findsp lines 1174-1199): while `active_readers > 0`, scan
for the non-EOF reader with the smallest dest (INT_MAX sentinel), append its
current line to OUT1, read its next line, and decrement `active_readers` when
that read returns 0 or -1.  Fuel bounds the iterations; `mergeOut1` passes
more fuel than any run can use (every iteration consumes input bytes or sets
an EOF flag). -/
def mergeLoopP : Nat → Int → List RStateP → List Nat
  | 0, _, _ => []
  | fuel + 1, active, readers =>
      if active ≤ 0 then []
      else
        match selectMin (readers.map (fun s => if s.eof then none else some s.dest)) with
        | none => []
        | some i =>
            match readers.get? i with
            | none => []
            | some st =>
                st.line ++
                  mergeLoopP fuel
                    (if (readNextP st).1 ≤ 0 then active - 1 else active)
                    (readers.set i (readNextP st).2)

/-- Initial read of one output file (findsp lines 1122-1155): each reducer
always creates its output file, so every reader starts from the file content;
`active_readers` counts the readers whose first read returned 1. -/
def initReaderP (content : List Nat) : Int × RStateP :=
  readNextP ⟨[], -1, false, content⟩

/-- `merge_output_files`: merge the R output files into OUT1. -/
def mergeOut1 (files : List (List Nat)) : List Nat :=
  mergeLoopP ((files.map List.length).sum + files.length + 1)
    ((files.map (fun c => if 0 < (initReaderP c).1 then (1 : Int) else 0)).sum)
    (files.map (fun c => (initReaderP c).2))

/-- OUT1 of findsp: the byte-level merge of the per-reducer adjacency
files. -/
def out1BytesP (M R : Nat) (mind maxd : Int) (lines : List Line) : List Nat :=
  mergeOut1 ((List.range R).map (fun r => adjFileP (redGroupsP M R mind maxd lines r)))

theorem takeChunk_line :
    ∀ (body : List Nat) (n : Nat) (rest : List Nat), (∀ b ∈ body, b ≠ 10) →
      body.length < n → takeChunk n (body ++ 10 :: rest) = (body ++ [10], rest) := by
  intro body
  induction body with
  | nil =>
    intro n rest _ hn
    match n, hn with
    | m + 1, _ =>
      rw [List.nil_append, takeChunk, if_pos rfl]
      rfl
  | cons b t ih =>
    intro n rest hb hn
    match n, hn with
    | m + 1, hn =>
      rw [List.cons_append, takeChunk, if_neg (hb b (List.mem_cons_self b t))]
      rw [ih m rest (fun x hx => hb x (List.mem_cons_of_mem b hx))
        (by simp at hn; omega)]
      rfl

/-- The part of a findsp adjacency line before its newline. -/
def adjBodyP (g : Nat × List Nat) : List Nat :=
  natBytes g.1 ++ 58 :: g.2.flatMap (fun s => 32 :: natBytes s)

theorem adjLineP_eq_body (g : Nat × List Nat) : adjLineP g = adjBodyP g ++ [10] := by
  unfold adjLineP adjBodyP
  simp

theorem adjBodyP_ne_nl (g : Nat × List Nat) : ∀ b ∈ adjBodyP g, b ≠ 10 := by
  intro b hb
  unfold adjBodyP at hb
  rcases List.mem_append.1 hb with h | h
  · have := natBytes_digits g.1 b h
    unfold isDigitByte at this
    simp only [Bool.and_eq_true, decide_eq_true_eq] at this
    omega
  · rcases List.mem_cons.1 h with h2 | h2
    · omega
    · obtain ⟨ss, _, h3⟩ := List.mem_flatMap.1 h2
      rcases List.mem_cons.1 h3 with h4 | h4
      · omega
      · have := natBytes_digits ss b h4
        unfold isDigitByte at this
        simp only [Bool.and_eq_true, decide_eq_true_eq] at this
        omega

theorem parseDestB_line (g : Nat × List Nat) (rest : List Nat) :
    parseDestB (adjLineP g ++ rest) = ((g.1 : Nat) : Int) := by
  have hshape : adjLineP g ++ rest =
      natBytes g.1 ++ 58 :: (g.2.flatMap (fun s => 32 :: natBytes s) ++ [10] ++ rest) := by
    unfold adjLineP
    simp
  rw [hshape]
  unfold parseDestB
  rw [dropWhile_ws_natBytes]
  have hhead : (natBytes g.1 ++ 58 ::
      (g.2.flatMap (fun s => 32 :: natBytes s) ++ [10] ++ rest)).head? ≠ some 45 := by
    obtain ⟨c, t, hct⟩ : ∃ c t, natBytes g.1 = c :: t := by
      cases hn : natBytes g.1 with
      | nil => exact absurd hn (natBytes_ne_nil g.1)
      | cons c t => exact ⟨c, t, rfl⟩
    rw [hct, List.cons_append]
    have hc := natBytes_digits g.1 c (by rw [hct]; exact List.mem_cons_self c t)
    unfold isDigitByte at hc
    simp only [Bool.and_eq_true, decide_eq_true_eq] at hc
    simp only [List.head?_cons, ne_eq, Option.some.injEq]
    omega
  rw [if_neg hhead]
  rw [takeWhile_append_stop (natBytes_digits g.1) (by decide) _]
  rw [if_neg (by rw [natBytes_isEmpty_false g.1]; exact Bool.false_ne_true)]
  rw [decDigits_natBytes]

/-- Relation between a reader state and the records it has yet to emit. -/
def ReaderSim (st : RStateP) (l : List (Nat × List Nat)) : Prop :=
  match l with
  | [] => st.eof = true
  | g :: t => st.eof = false ∧ st.line = adjLineP g ∧ st.dest = ((g.1 : Nat) : Int) ∧
      st.rest = adjFileP t

theorem readNextP_end (line : List Nat) (d : Int) :
    readNextP ⟨line, d, false, []⟩ = (0, ⟨line, d, true, []⟩) := by
  rw [readNextP]
  simp

theorem readNextP_line (line0 : List Nat) (d0 : Int) (g : Nat × List Nat)
    (rest : List Nat) (hlen : (adjLineP g).length ≤ 255) :
    readNextP ⟨line0, d0, false, adjLineP g ++ rest⟩ =
      (1, ⟨adjLineP g, ((g.1 : Nat) : Int), false, rest⟩) := by
  have hne : (adjLineP g ++ rest).isEmpty = false := by
    rw [adjLineP_eq_body, List.append_assoc, List.cons_append, List.nil_append]
    cases adjBodyP g with
    | nil => rfl
    | cons c t => rfl
  have hchunk : takeChunk 255 (adjLineP g ++ rest) = (adjLineP g, rest) := by
    have hlt : (adjBodyP g).length < 255 := by
      rw [adjLineP_eq_body, List.length_append] at hlen
      simp at hlen
      omega
    have h1 := takeChunk_line (adjBodyP g) 255 rest (adjBodyP_ne_nl g) hlt
    rw [adjLineP_eq_body, List.append_assoc, List.cons_append, List.nil_append, h1]
  have hpd : parseDestB (adjLineP g) = ((g.1 : Nat) : Int) := by
    have h2 := parseDestB_line g []
    rwa [List.append_nil] at h2
  rw [readNextP]
  simp only [if_neg (by simp : ¬(false = true)), hne, Bool.false_eq_true, if_false]
  rw [hchunk]
  simp only [hpd]
  have hnonneg : ¬(((g.1 : Nat) : Int) < 0) := by
    simp
  rw [if_neg hnonneg]

theorem selectMinGo_all_none :
    ∀ (ds : List (Option Int)) (i : Nat) (bd : Int),
      (∀ o ∈ ds, o = none) → selectMinGo ds i none bd = none := by
  intro ds
  induction ds with
  | nil =>
    intro i bd _
    rfl
  | cons o rest ih =>
    intro i bd h
    have ho : o = none := h o (List.mem_cons_self o rest)
    subst ho
    exact ih (i + 1) bd (fun x hx => h x (List.mem_cons_of_mem _ hx))

theorem forall2_get {α β : Type} {R : α → β → Prop} :
    ∀ {rs : List α} {ss : List β}, List.Forall₂ R rs ss →
      ∀ (i : Nat) (y : β), ss.get? i = some y → ∃ x, rs.get? i = some x ∧ R x y := by
  intro rs ss h
  induction h with
  | nil =>
    intro i y hy
    simp at hy
  | cons h1 h2 ih =>
    rename_i a b as bs
    intro i y hy
    cases i with
    | zero =>
      have hb : b = y := Option.some.inj (by simpa using hy)
      exact ⟨a, rfl, hb ▸ h1⟩
    | succ i =>
      exact ih i y (by simpa using hy)

theorem forall2_set {α β : Type} {R : α → β → Prop} :
    ∀ {rs : List α} {ss : List β}, List.Forall₂ R rs ss →
      ∀ (i : Nat) (a : α) (b : β), R a b →
        List.Forall₂ R (rs.set i a) (ss.set i b) := by
  intro rs ss h
  induction h with
  | nil =>
    intro i a b _
    exact List.Forall₂.nil
  | cons h1 h2 ih =>
    rename_i x y xs ys
    intro i a b hab
    cases i with
    | zero => exact List.Forall₂.cons hab h2
    | succ i => exact List.Forall₂.cons h1 (ih i a b hab)

theorem forall2_map_dests :
    ∀ {readers : List RStateP} {streams : List (List (Nat × List Nat))},
      List.Forall₂ ReaderSim readers streams →
      readers.map (fun s => if s.eof then none else some s.dest) =
        streamDests streams := by
  intro readers streams h
  induction h with
  | nil => rfl
  | cons h1 h2 ih =>
    rename_i st l sts ls
    have hcons : streamDests (l :: ls) =
        (l.head?.map (fun g => ((g.1 : Nat) : Int))) :: streamDests ls := rfl
    rw [List.map_cons, hcons]
    congr 1
    · cases l with
      | nil =>
        have he : st.eof = true := h1
        simp [he]
      | cons g t =>
        obtain ⟨he, _, hd, _⟩ := h1
        simp [he, hd]

theorem countP_set_tail_nil (i : Nat) :
    ∀ (ss : List (List (Nat × List Nat))) (g : Nat × List Nat),
      ss.get? i = some [g] →
      (ss.set i ([] : List (Nat × List Nat))).countP (fun l => !l.isEmpty) + 1 =
        ss.countP (fun l => !l.isEmpty) := by
  induction i with
  | zero =>
    intro ss g h
    cases ss with
    | nil => simp at h
    | cons s rest =>
      have hs : s = [g] := by simpa using h
      subst hs
      simp [List.countP_cons]
  | succ i ih =>
    intro ss g h
    cases ss with
    | nil => simp at h
    | cons s rest =>
      have h2 : rest.get? i = some [g] := by simpa using h
      have := ih rest g h2
      simp only [List.set_cons_succ, List.countP_cons]
      omega

theorem countP_set_tail_cons (i : Nat) :
    ∀ (ss : List (List (Nat × List Nat))) (g g2 : Nat × List Nat)
      (t : List (Nat × List Nat)),
      ss.get? i = some (g :: g2 :: t) →
      (ss.set i (g2 :: t)).countP (fun l => !l.isEmpty) =
        ss.countP (fun l => !l.isEmpty) := by
  induction i with
  | zero =>
    intro ss g g2 t h
    cases ss with
    | nil => simp at h
    | cons s rest =>
      have hs : s = g :: g2 :: t := by simpa using h
      subst hs
      simp [List.countP_cons]
  | succ i ih =>
    intro ss g g2 t h
    cases ss with
    | nil => simp at h
    | cons s rest =>
      have h2 : rest.get? i = some (g :: g2 :: t) := by simpa using h
      have := ih rest g g2 t h2
      simp only [List.set_cons_succ, List.countP_cons]
      omega

theorem streamDests_bound_of_wf {streams : List (List (Nat × List Nat))}
    (hwf : ∀ l ∈ streams, ∀ g ∈ l, (adjLineP g).length ≤ 255 ∧
      ((g.1 : Nat) : Int) < intMax) :
    ∀ o ∈ streamDests streams, ∀ dv : Int, o = some dv → dv < intMax := by
  intro o ho dv hdv
  obtain ⟨l, hl, hfn⟩ := List.mem_map.1 ho
  subst hdv
  cases l with
  | nil => simp at hfn
  | cons g t =>
    have : ((g.1 : Nat) : Int) = dv := by simpa using hfn
    rw [← this]
    exact (hwf (g :: t) hl g (List.mem_cons_self g t)).2

theorem mergeLoopP_stop {fuel : Nat} {active : Int} {readers : List RStateP}
    (h : active ≤ 0) : mergeLoopP (fuel + 1) active readers = [] := by
  rw [mergeLoopP, if_pos h]

theorem mergeLoopP_go {fuel : Nat} {active : Int} {readers : List RStateP}
    {i : Nat} {st : RStateP} (ha : ¬active ≤ 0)
    (hsel : selectMin (readers.map (fun s => if s.eof then none else some s.dest)) =
      some i)
    (hget : readers.get? i = some st) :
    mergeLoopP (fuel + 1) active readers =
      st.line ++ mergeLoopP fuel
        (if (readNextP st).1 ≤ 0 then active - 1 else active)
        (readers.set i (readNextP st).2) := by
  rw [mergeLoopP, if_neg ha]
  split
  · simp_all
  · rename_i i2 hsel2
    have hii : i2 = i := by
      rw [hsel] at hsel2
      exact (Option.some.inj hsel2).symm
    subst hii
    split
    · simp_all
    · simp_all

theorem mergeLoopP_sim :
    ∀ (fuel : Nat) (streams : List (List (Nat × List Nat))) (readers : List RStateP),
      List.Forall₂ ReaderSim readers streams →
      (∀ l ∈ streams, ∀ g ∈ l, (adjLineP g).length ≤ 255 ∧
        ((g.1 : Nat) : Int) < intMax) →
      (streams.map List.length).sum < fuel →
      mergeLoopP fuel ((streams.countP (fun l => !l.isEmpty) : Nat) : Int) readers =
        (mergeRecs streams).flatMap adjLineP := by
  intro fuel
  induction fuel with
  | zero =>
    intro streams readers _ _ hfuel
    exact absurd hfuel (Nat.not_lt_zero _)
  | succ fuel ih =>
    intro streams readers hsim hwf hfuel
    by_cases hc : streams.countP (fun l => !l.isEmpty) = 0
    · have hnone : ∀ o ∈ streamDests streams, o = none := by
        intro o ho
        obtain ⟨l, hl, hfn⟩ := List.mem_map.1 ho
        have hle : l = [] := by
          have := List.countP_eq_zero.1 hc l hl
          simpa using this
        rw [hle] at hfn
        simpa using hfn.symm
      rw [hc, mergeLoopP_stop (by simp),
        mergeRecs_none (selectMinGo_all_none _ 0 intMax hnone)]
      rfl
    · have hpos : 0 < streams.countP (fun l => !l.isEmpty) := Nat.pos_of_ne_zero hc
      have hactive : ¬(((streams.countP (fun l => !l.isEmpty) : Nat) : Int) ≤ 0) := by
        omega
      cases hsel : selectMin (streamDests streams) with
      | none =>
        exfalso
        have hallnone := selectMin_none (streamDests_bound_of_wf hwf) hsel
        have hexists : ∃ l ∈ streams, (!l.isEmpty) = true := by
          by_contra hno
          push_neg at hno
          exact hc (List.countP_eq_zero.2 (by simpa using hno))
        obtain ⟨l, hl, hlp⟩ := hexists
        cases l with
        | nil => simp at hlp
        | cons g t =>
          have hmem : (some ((g.1 : Nat) : Int)) ∈ streamDests streams := by
            rw [streamDests]
            exact List.mem_map.2 ⟨g :: t, hl, rfl⟩
          exact absurd (hallnone _ hmem) (by simp)
      | some i =>
        obtain ⟨dv, hgetd, _⟩ := selectMin_some hsel
        rw [streamDests, List.get?_map] at hgetd
        obtain ⟨l, hgetl, hfn⟩ := Option.map_eq_some'.1 hgetd
        cases l with
        | nil => simp at hfn
        | cons g t =>
          obtain ⟨st, hgetr, hsimst⟩ := forall2_get hsim i (g :: t) hgetl
          obtain ⟨he, hline, hdest, hrest⟩ := hsimst
          have hst : st = ⟨adjLineP g, ((g.1 : Nat) : Int), false, adjFileP t⟩ := by
            cases st
            simp_all
          subst hst
          have hmap := forall2_map_dests hsim
          rw [mergeLoopP_go hactive (by rw [hmap]; exact hsel) hgetr]
          rw [mergeRecs_step hsel hgetl]
          cases t with
          | nil =>
            have hrn := readNextP_end (adjLineP g) ((g.1 : Nat) : Int)
            have hrn2 : readNextP ⟨adjLineP g, ((g.1 : Nat) : Int), false, adjFileP []⟩ =
                (0, ⟨adjLineP g, ((g.1 : Nat) : Int), true, []⟩) := hrn
            rw [hrn2]
            simp only [if_pos (by omega : (0 : Int) ≤ 0)]
            have hcnt := countP_set_tail_nil i streams g hgetl
            have hacteq : ((streams.countP (fun l => !l.isEmpty) : Nat) : Int) - 1 =
                (((streams.set i ([] : List (Nat × List Nat))).countP
                  (fun l => !l.isEmpty) : Nat) : Int) := by
              omega
            rw [hacteq]
            have hsim2 : List.Forall₂ ReaderSim
                (readers.set i ⟨adjLineP g, ((g.1 : Nat) : Int), true, []⟩)
                (streams.set i ([] : List (Nat × List Nat))) :=
              forall2_set hsim i _ _ rfl
            have hwf2 : ∀ l ∈ streams.set i ([] : List (Nat × List Nat)),
                ∀ g2 ∈ l, (adjLineP g2).length ≤ 255 ∧
                  ((g2.1 : Nat) : Int) < intMax := by
              intro l hl g2 hg2
              rcases List.mem_or_eq_of_mem_set hl with h2 | h2
              · exact hwf l h2 g2 hg2
              · rw [h2] at hg2
                simp at hg2
            have hfuel2 : ((streams.set i
                ([] : List (Nat × List Nat))).map List.length).sum < fuel := by
              have := sum_length_set_lt i streams g [] hgetl
              omega
            rw [ih _ _ hsim2 hwf2 hfuel2, List.flatMap_cons]
          | cons g2 t2 =>
            have hmem2 : g :: g2 :: t2 ∈ streams := List.get?_mem hgetl
            have hlen2 : (adjLineP g2).length ≤ 255 :=
              (hwf _ hmem2 g2 (List.mem_cons_of_mem g (List.mem_cons_self g2 t2))).1
            have hfile : adjFileP (g2 :: t2) = adjLineP g2 ++ adjFileP t2 := by
              unfold adjFileP
              rw [List.flatMap_cons]
            have hrn : readNextP ⟨adjLineP g, ((g.1 : Nat) : Int), false,
                adjFileP (g2 :: t2)⟩ =
                (1, ⟨adjLineP g2, ((g2.1 : Nat) : Int), false, adjFileP t2⟩) := by
              rw [hfile]
              exact readNextP_line (adjLineP g) ((g.1 : Nat) : Int) g2 (adjFileP t2) hlen2
            rw [hrn]
            simp only [if_neg (by omega : ¬((1 : Int) ≤ 0))]
            have hcnt := countP_set_tail_cons i streams g g2 t2 hgetl
            rw [show ((streams.countP (fun l => !l.isEmpty) : Nat) : Int) =
                (((streams.set i (g2 :: t2)).countP (fun l => !l.isEmpty) : Nat) : Int)
              by omega]
            have hsim2 : List.Forall₂ ReaderSim
                (readers.set i ⟨adjLineP g2, ((g2.1 : Nat) : Int), false, adjFileP t2⟩)
                (streams.set i (g2 :: t2)) :=
              forall2_set hsim i _ _ ⟨rfl, rfl, rfl, rfl⟩
            have hwf2 : ∀ l ∈ streams.set i (g2 :: t2), ∀ g3 ∈ l,
                (adjLineP g3).length ≤ 255 ∧ ((g3.1 : Nat) : Int) < intMax := by
              intro l hl g3 hg3
              rcases List.mem_or_eq_of_mem_set hl with h2 | h2
              · exact hwf l h2 g3 hg3
              · rw [h2] at hg3
                exact hwf _ hmem2 g3 (List.mem_cons_of_mem g hg3)
            have hfuel2 : ((streams.set i (g2 :: t2)).map List.length).sum < fuel := by
              have := sum_length_set_lt i streams g (g2 :: t2) hgetl
              omega
            rw [ih _ _ hsim2 hwf2 hfuel2, List.flatMap_cons]

theorem adjFileP_length_ge (l : List (Nat × List Nat)) :
    l.length ≤ (adjFileP l).length := by
  induction l with
  | nil => simp [adjFileP]
  | cons g t ih =>
    have h1 : 1 ≤ (adjLineP g).length := by
      rw [adjLineP_eq_body, List.length_append]
      simp
    unfold adjFileP at ih ⊢
    rw [List.flatMap_cons, List.length_append, List.length_cons]
    omega

theorem initReaderP_sim (l : List (Nat × List Nat))
    (hlen : ∀ g ∈ l, (adjLineP g).length ≤ 255) :
    ReaderSim (initReaderP (adjFileP l)).2 l ∧
      ((initReaderP (adjFileP l)).1 = if l.isEmpty then 0 else 1) := by
  cases l with
  | nil => exact ⟨rfl, rfl⟩
  | cons g t =>
    unfold initReaderP
    have hfile : adjFileP (g :: t) = adjLineP g ++ adjFileP t := by
      unfold adjFileP
      rw [List.flatMap_cons]
    have h1 := readNextP_line [] (-1) g (adjFileP t) (hlen g (List.mem_cons_self g t))
    rw [hfile, h1]
    exact ⟨⟨rfl, rfl, rfl, rfl⟩, rfl⟩

theorem init_forall2 :
    ∀ (streams : List (List (Nat × List Nat))),
      (∀ l ∈ streams, ∀ g ∈ l, (adjLineP g).length ≤ 255) →
      List.Forall₂ ReaderSim
        ((streams.map adjFileP).map (fun c => (initReaderP c).2)) streams := by
  intro streams
  induction streams with
  | nil =>
    intro _
    exact List.Forall₂.nil
  | cons l ls ih =>
    intro h
    simp only [List.map_cons]
    exact List.Forall₂.cons
      ((initReaderP_sim l (fun g hg => h l (List.mem_cons_self l ls) g hg)).1)
      (ih (fun l2 hl2 => h l2 (List.mem_cons_of_mem l hl2)))

theorem init_active :
    ∀ (streams : List (List (Nat × List Nat))),
      (∀ l ∈ streams, ∀ g ∈ l, (adjLineP g).length ≤ 255) →
      ((streams.map adjFileP).map
        (fun c => if 0 < (initReaderP c).1 then (1 : Int) else 0)).sum =
        ((streams.countP (fun l => !l.isEmpty) : Nat) : Int) := by
  intro streams
  induction streams with
  | nil =>
    intro _
    rfl
  | cons l ls ih =>
    intro h
    simp only [List.map_cons, List.sum_cons]
    rw [ih (fun l2 hl2 => h l2 (List.mem_cons_of_mem l hl2))]
    rw [(initReaderP_sim l (fun g hg => h l (List.mem_cons_self l ls) g hg)).2]
    rw [List.countP_cons]
    cases l with
    | nil => simp
    | cons g t =>
      simp
      omega

theorem sum_length_files_ge :
    ∀ (streams : List (List (Nat × List Nat))),
      (streams.map List.length).sum ≤
        ((streams.map adjFileP).map List.length).sum := by
  intro streams
  induction streams with
  | nil => simp
  | cons l ls ih =>
    simp only [List.map_cons, List.sum_cons]
    have := adjFileP_length_ge l
    omega

theorem mergeOut1_sim (streams : List (List (Nat × List Nat)))
    (hwf : ∀ l ∈ streams, ∀ g ∈ l, (adjLineP g).length ≤ 255 ∧
      ((g.1 : Nat) : Int) < intMax) :
    mergeOut1 (streams.map adjFileP) = (mergeRecs streams).flatMap adjLineP := by
  have hlen : ∀ l ∈ streams, ∀ g ∈ l, (adjLineP g).length ≤ 255 :=
    fun l hl g hg => (hwf l hl g hg).1
  unfold mergeOut1
  rw [init_active streams hlen]
  exact mergeLoopP_sim _ streams _ (init_forall2 streams hlen) hwf
    (by
      have := sum_length_files_ge streams
      have h2 : (streams.map adjFileP).length = streams.length := by simp
      omega)

theorem mem_specAdj_of_mem_part {R r : Nat} {ps : List (Nat × Nat)}
    {g : Nat × List Nat} (h : g ∈ specAdj (partPairs R ps r)) : g ∈ specAdj ps := by
  obtain ⟨h1, h2⟩ := mem_specAdj.1 h
  have hmod : g.1 % R = r := mem_adj_part_mod h
  refine mem_specAdj.2 ⟨?_, ?_⟩
  · rw [← hmod] at h1
    exact mem_dests_iff_mem_part.1 h1
  · rw [h2, ← hmod]
    exact specSources_part R ps rfl

/-- OUT1 of findsp is the rendering of the global adjacency view whenever
every adjacency line (newline included) fits `fgets`'s 256-byte buffer and
every destination is below INT_MAX. -/
theorem out1BytesP_spec (M R : Nat) (mind maxd : Int) (lines : List Line)
    (hM : 0 < M) (hR : 0 < R)
    (hwf : ∀ g ∈ specAdj (keptPairs mind maxd lines),
      (adjLineP g).length ≤ 255 ∧ ((g.1 : Nat) : Int) < intMax) :
    out1BytesP M R mind maxd lines =
      adjFileP (specAdj (keptPairs mind maxd lines)) := by
  unfold out1BytesP
  have hmapeq : (List.range R).map
      (fun r => adjFileP (redGroupsP M R mind maxd lines r)) =
      ((List.range R).map
        (fun r => specAdj (partPairs R (keptPairs mind maxd lines) r))).map
        adjFileP := by
    rw [List.map_map]
    refine List.map_congr_left ?_
    intro r _
    simp only [Function.comp]
    rw [redGroupsP_eq M R mind maxd lines r hM]
  rw [hmapeq]
  have hmemwf : ∀ l ∈ (List.range R).map
      (fun r => specAdj (partPairs R (keptPairs mind maxd lines) r)),
      ∀ g ∈ l, (adjLineP g).length ≤ 255 ∧ ((g.1 : Nat) : Int) < intMax := by
    intro l hl g hg
    obtain ⟨r, _, rfl⟩ := List.mem_map.1 hl
    exact hwf g (mem_specAdj_of_mem_part hg)
  rw [mergeOut1_sim _ hmemwf]
  rw [mergeRecs_partition R hR _ (fun l hl g hg => (hmemwf l hl g hg).2)]
  rfl

/-! ### Evaluation and splitter/mapper characterization helpers. -/

theorem redCountsP_eq (M R : Nat) (mind maxd : Int) (lines : List Line) (r : Nat)
    (hM : 0 < M) :
    redCountsP M R mind maxd lines r =
      specCounts (partPairs R (keptPairs mind maxd lines) r) := by
  unfold redCountsP specCounts
  rw [redGroupsP_eq M R mind maxd lines r hM]

theorem out2RecordsP_eval (shmsize M R : Nat) (mind maxd : Int) (lines : List Line)
    (hM : 0 < M) :
    out2RecordsP shmsize M R mind maxd lines =
      sortByDest ((List.range R).flatMap (fun r => decodeRegion
        ((shmWrite (regionSize shmsize R)
          (specCounts (partPairs R (keptPairs mind maxd lines) r)) 0).1))) := by
  unfold out2RecordsP shmRegionP
  congr 1
  refine flatMap_congr_fun _ _ _ ?_
  intro r _
  rw [redCountsP_eq M R mind maxd lines r hM]

theorem out1BytesP_eval (M R : Nat) (mind maxd : Int) (lines : List Line)
    (hM : 0 < M) :
    out1BytesP M R mind maxd lines =
      mergeOut1 ((List.range R).map
        (fun r => adjFileP (specAdj (partPairs R (keptPairs mind maxd lines) r)))) := by
  unfold out1BytesP
  congr 1
  refine List.map_congr_left ?_
  intro r _
  rw [redGroupsP_eq M R mind maxd lines r hM]

theorem redGroupsP_eval (M R : Nat) (mind maxd : Int) (lines : List Line) (r : Nat)
    (hM : 0 < M) :
    adjFileP (redGroupsP M R mind maxd lines r) =
      adjFileP (specAdj (partPairs R (keptPairs mind maxd lines) r)) := by
  rw [redGroupsP_eq M R mind maxd lines r hM]

/-- The records that parse with two non-negative vertices, before the
destination filter. -/
def goodRecs (lines : List Line) : List (Nat × Nat) :=
  lines.filterMap (fun l =>
    match l with
    | Line.edge s d =>
        if 0 ≤ s ∧ 0 ≤ d then some (s.toNat, d.toNat) else none
    | Line.bad => none)

theorem assignP_eq_enum (M : Nat) (mind maxd : Int) :
    ∀ (lines : List Line) (j : Nat),
      assignP M mind maxd lines j =
        ((List.enumFrom j (goodRecs lines)).filter
          (fun p => keepDest mind maxd ((p.2.2 : Nat) : Int))).map
            (fun p => (p.1 % M, p.2)) := by
  intro lines
  induction lines with
  | nil =>
    intro j
    rfl
  | cons l rest ih =>
    intro j
    cases l with
    | bad =>
      rw [assignP]
      exact ih j
    | edge s d =>
      by_cases h1 : 0 ≤ s ∧ 0 ≤ d
      · have hgood : goodRecs (Line.edge s d :: rest) =
            (s.toNat, d.toNat) :: goodRecs rest := by
          unfold goodRecs
          rw [List.filterMap_cons]
          simp [if_pos h1]
        rw [hgood, List.enumFrom_cons, List.filter_cons]
        have hdd : ((d.toNat : Nat) : Int) = d := Int.toNat_of_nonneg h1.2
        by_cases h2 : keepDest mind maxd d
        · rw [assignP, if_pos h1, if_pos h2]
          have h2b : keepDest mind maxd (((j, (s.toNat, d.toNat)).2.2 : Nat) : Int)
              = true := by
            show keepDest mind maxd ((d.toNat : Nat) : Int) = true
            rw [hdd]
            exact h2
          rw [if_pos h2b, List.map_cons, ih (j + 1)]
        · rw [assignP, if_pos h1, if_neg h2]
          have h2b : ¬(keepDest mind maxd (((j, (s.toNat, d.toNat)).2.2 : Nat) : Int)
              = true) := by
            show ¬(keepDest mind maxd ((d.toNat : Nat) : Int) = true)
            rw [hdd]
            exact h2
          rw [if_neg h2b, ih (j + 1)]
      · have hgood : goodRecs (Line.edge s d :: rest) = goodRecs rest := by
          unfold goodRecs
          rw [List.filterMap_cons]
          simp [if_neg h1]
        rw [hgood, assignP, if_neg h1]
        exact ih j

theorem assignT_eq_enum (M : Nat) :
    ∀ (lines : List Line) (k : Nat),
      assignT M lines (k % M) =
        (List.enumFrom k lines).map (fun p => (p.1 % M, p.2)) := by
  intro lines
  induction lines with
  | nil =>
    intro k
    rfl
  | cons l rest ih =>
    intro k
    rw [assignT, List.enumFrom_cons, List.map_cons]
    congr 1
    rw [Nat.mod_add_mod]
    exact ih (k + 1)

theorem segT_eq_roundRobin (M : Nat) (lines : List Line) (i : Nat) :
    segT M lines i =
      ((lines.enum.filter (fun p => p.1 % M == i)).map (fun p => p.2)) := by
  unfold segT
  have h0 : assignT M lines 0 = assignT M lines (0 % M) := by
    rw [Nat.zero_mod]
  rw [h0, assignT_eq_enum M lines 0, List.filter_map]
  rw [List.map_map]
  rfl

theorem segP_eq_roundRobin (M : Nat) (mind maxd : Int) (lines : List Line) (i : Nat) :
    segP M mind maxd lines i =
      ((((goodRecs lines).enum.filter
          (fun p => keepDest mind maxd ((p.2.2 : Nat) : Int))).filter
            (fun p => p.1 % M == i)).map (fun p => p.2)) := by
  unfold segP
  rw [show (0 : Nat) = 0 % M from (Nat.zero_mod M).symm] at *
  rw [assignP_eq_enum M mind maxd lines, List.filter_map, List.map_map]
  rfl

theorem assignP_filter_good (M : Nat) (mind maxd : Int) :
    ∀ (lines : List Line) (j : Nat),
      assignP M mind maxd lines j =
        assignP M mind maxd (lines.filter goodLine) j := by
  intro lines
  induction lines with
  | nil =>
    intro j
    rfl
  | cons l rest ih =>
    intro j
    cases l with
    | bad =>
      rw [assignP, List.filter_cons]
      rw [show goodLine Line.bad = false from rfl]
      rw [if_neg (by simp : ¬(false = true))]
      exact ih j
    | edge s d =>
      rw [List.filter_cons]
      by_cases h1 : 0 ≤ s ∧ 0 ≤ d
      · have hg : goodLine (Line.edge s d) = true := by
          unfold goodLine
          simp [h1.1, h1.2]
        rw [if_pos hg, assignP, assignP, if_pos h1]
        by_cases h2 : keepDest mind maxd d
        · rw [if_pos h2, if_pos h2, ih (j + 1), if_pos h1]
        · rw [if_neg h2, if_neg h2, ih (j + 1), if_pos h1]
      · have hg : ¬(goodLine (Line.edge s d) = true) := by
          unfold goodLine
          simpa using h1
        rw [if_neg hg, assignP, if_neg h1]
        exact ih j

theorem segP_filter_good (M : Nat) (mind maxd : Int) (lines : List Line) (i : Nat) :
    segP M mind maxd lines i = segP M mind maxd (lines.filter goodLine) i := by
  unfold segP
  rw [assignP_filter_good M mind maxd lines 0]

theorem out2RecordsP_filter_good (shmsize M R : Nat) (mind maxd : Int)
    (lines : List Line) :
    out2RecordsP shmsize M R mind maxd lines =
      out2RecordsP shmsize M R mind maxd (lines.filter goodLine) := by
  unfold out2RecordsP shmRegionP redCountsP redGroupsP pairsAtRedP
  have h : ∀ m, segP M mind maxd lines m = segP M mind maxd (lines.filter goodLine) m :=
    fun m => segP_filter_good M mind maxd lines m
  simp only [h]

theorem out1BytesP_filter_good (M R : Nat) (mind maxd : Int) (lines : List Line) :
    out1BytesP M R mind maxd lines =
      out1BytesP M R mind maxd (lines.filter goodLine) := by
  unfold out1BytesP redGroupsP pairsAtRedP
  have h : ∀ m, segP M mind maxd lines m = segP M mind maxd (lines.filter goodLine) m :=
    fun m => segP_filter_good M mind maxd lines m
  simp only [h]

/-- A line at which the findst mapper's `fscanf` loop does not stop. -/
def notBadT : Line → Bool
  | Line.edge _ _ => true
  | Line.bad => false

theorem mapperT_takeWhile (R : Nat) (mind maxd : Int) :
    ∀ (lines : List Line),
      mapperT R mind maxd lines = mapperT R mind maxd (lines.takeWhile notBadT) := by
  intro lines
  induction lines with
  | nil => rfl
  | cons l rest ih =>
    cases l with
    | bad => rfl
    | edge s d =>
      rw [List.takeWhile_cons]
      rw [show notBadT (Line.edge s d) = true from rfl]
      rw [if_pos rfl, mapperT, mapperT]
      by_cases h : keepDestT mind maxd d
      · rw [if_pos h, if_pos h, ih]
      · rw [if_neg h, if_neg h, ih]

theorem mapperT_key (R : Nat) (mind maxd : Int) :
    ∀ (lines : List Line), ∀ x ∈ mapperT R mind maxd lines,
      x.1 = cmod x.2.1 R + 1 := by
  intro lines
  induction lines with
  | nil =>
    intro x hx
    simp [mapperT] at hx
  | cons l rest ih =>
    intro x hx
    cases l with
    | bad => simp [mapperT] at hx
    | edge s d =>
      rw [mapperT] at hx
      by_cases h : keepDestT mind maxd d
      · rw [if_pos h] at hx
        rcases List.mem_cons.1 hx with h2 | h2
        · subst h2
          rfl
        · exact ih x h2
      · rw [if_neg h] at hx
        exact ih x hx

theorem pairsAtRedP_key (M R : Nat) (mind maxd : Int) (lines : List Line) (r : Nat) :
    ∀ p ∈ pairsAtRedP M R mind maxd lines r, p.1 % R = r := by
  intro p hp
  unfold pairsAtRedP at hp
  obtain ⟨m, _, hm⟩ := List.mem_flatMap.1 hp
  unfold mapperPairsP at hm
  obtain ⟨e, he, hfe⟩ := List.mem_map.1 hm
  have h2 := (List.mem_filter.1 he).2
  rw [← hfe]
  simpa using h2

/-! ### The claims. -/

set_option maxRecDepth 20000

/-- Input for the OUT1 merge analysis: 43 five-digit sources for dest 2 make
the rendered adjacency line "2: 10000 ... 10042\n" 261 bytes long, past the
256-byte `fgets` buffer of `merge_output_files`; one extra record for dest 3
lands in the other partition when R = 2. -/
def c1Lines : List Line :=
  ((List.range 43).map (fun k => Line.edge ((10000 : Int) + (k : Int)) 2)) ++
    [Line.edge 1 3]

/-- C1: refuted as stated - the merged OUT1 is NOT always the ascending
unique-dest adjacency rendering.  `merge_output_files` reads lines with
`fgets(line, 256)` (findsp line 1090): an adjacency line longer than 255
bytes is split into chunks, the continuation chunk's leading digits are
re-parsed as a fresh dest by `sscanf("%d:")`, and the merge interleaves the
other reader's lines into the middle of the broken line.  On `c1Lines` with
M = 1, R = 2 the merged bytes differ from the unique byte string the claimed
property determines (the rendering of the specification adjacency view). -/
theorem C1_out1_merge_corrupts_long_lines :
    out1BytesP 1 2 0 100000 c1Lines ≠
      adjFileP (specAdj (keptPairs 0 100000 c1Lines)) := by
  rw [out1BytesP_eval 1 2 0 100000 c1Lines (by decide)]
  decide

/-- C2 counterexample: with SHMSIZE = 5 one reducer region holds 12 bytes;
four kept dests need 16 bytes of count lines, so `write_to_shared_memory`
drops the fourth entry and OUT2 is not the specification count view. -/
theorem C2_counterexample_capacity_drop :
    out2RecordsP 5 1 1 0 100000
        [Line.edge 1 1, Line.edge 1 2, Line.edge 1 3, Line.edge 1 4] ≠
      specCounts (keptPairs 0 100000
        [Line.edge 1 1, Line.edge 1 2, Line.edge 1 3, Line.edge 1 4]) := by
  rw [out2RecordsP_eval 5 1 1 0 100000 _ (by decide)]
  decide

/-- C2 (amended): on well-formed input, when every reducer's formatted count
lines fit its shared-memory slice (findsp) and no reducer exceeds the
50000-entry results capacity (findst), OUT2 of both backends is exactly the
specification count view: strictly ascending unique dests, each counted line
carrying the number of distinct sources of its dest. -/
theorem C2_count_output_amended (shmsize M R : Nat) (mind maxd : Int)
    (lines : List Line) (hM : 0 < M) (hR : 0 < R)
    (hcapP : ∀ r < R,
      totalCountBytes (specCounts (partPairs R (keptPairs mind maxd lines) r))
        ≤ regionSize shmsize R)
    (hclean : ∀ l ∈ lines, goodLine l = true)
    (hcapT : ∀ r < R,
      (specCounts (partPairs R (keptPairs mind maxd lines) r)).length
        ≤ resultsCapT) :
    out2RecordsP shmsize M R mind maxd lines =
        specCounts (keptPairs mind maxd lines) ∧
      out2RecordsT M R mind maxd lines = specCounts (keptPairs mind maxd lines) ∧
      (specCounts (keptPairs mind maxd lines)).Pairwise (fun a b => a.1 < b.1) ∧
      (∀ e, e ∈ specCounts (keptPairs mind maxd lines) ↔
        e.1 ∈ (keptPairs mind maxd lines).map (fun p => p.1) ∧
        e.2 = (specSources (keptPairs mind maxd lines) e.1).length) :=
  ⟨out2RecordsP_eq_specCounts shmsize M R mind maxd lines hM hR hcapP,
   out2RecordsT_eq_specCounts M R mind maxd lines hM hR hclean hcapT,
   specCounts_key_sorted _,
   fun _ => mem_specCounts⟩

theorem C2_count_output_amended_witness :
    (0 : Nat) < 2 ∧ (0 : Nat) < 2 ∧
    (∀ r < 2, totalCountBytes (specCounts (partPairs 2 (keptPairs 0 100000
      [Line.edge 1 2, Line.edge 3 2, Line.edge 5 4, Line.edge 1 4,
        Line.edge 2 2]) r)) ≤ regionSize 20 2) ∧
    (∀ l ∈ [Line.edge 1 2, Line.edge 3 2, Line.edge 5 4, Line.edge 1 4,
        Line.edge 2 2], goodLine l = true) ∧
    (∀ r < 2, (specCounts (partPairs 2 (keptPairs 0 100000
      [Line.edge 1 2, Line.edge 3 2, Line.edge 5 4, Line.edge 1 4,
        Line.edge 2 2]) r)).length ≤ resultsCapT) ∧
    out2RecordsP 20 2 2 0 100000
        [Line.edge 1 2, Line.edge 3 2, Line.edge 5 4, Line.edge 1 4,
          Line.edge 2 2] =
      specCounts (keptPairs 0 100000
        [Line.edge 1 2, Line.edge 3 2, Line.edge 5 4, Line.edge 1 4,
          Line.edge 2 2]) :=
  ⟨by decide, by decide, by decide, by decide, by decide,
    (C2_count_output_amended 20 2 2 0 100000
      [Line.edge 1 2, Line.edge 3 2, Line.edge 5 4, Line.edge 1 4,
        Line.edge 2 2]
      (by decide) (by decide) (by decide) (by decide) (by decide)).1⟩

/-- C4 counterexample: fixed input (dests 1..4, one source each), fixed
filter, fixed SHMSIZE = 5.  With R = 1 the single 12-byte region keeps three
count entries; with R = 2 each 2-byte region keeps none, so OUT2 differs
between two valid parallelism choices. -/
theorem C4_counterexample_R_changes_out2 :
    out2RecordsP 5 1 1 0 100000
        [Line.edge 2 1, Line.edge 2 2, Line.edge 2 3, Line.edge 2 4] ≠
      out2RecordsP 5 1 2 0 100000
        [Line.edge 2 1, Line.edge 2 2, Line.edge 2 3, Line.edge 2 4] := by
  rw [out2RecordsP_eval 5 1 1 0 100000 _ (by decide),
    out2RecordsP_eval 5 1 2 0 100000 _ (by decide)]
  decide

/-- C4 (amended): the outputs are invariant under the choice of (M, R) only
as long as every reducer stays within capacity for BOTH choices and every
adjacency line fits the merge buffer: then OUT1 and OUT2 are byte-identical
across the two runs.  Outside those bounds the result depends on R (the
counterexample drops entries under one R and not the other). -/
theorem C4_parallelism_invariance_amended (shmsize M1 R1 M2 R2 : Nat)
    (mind maxd : Int) (lines : List Line)
    (hM1 : 0 < M1) (hR1 : 0 < R1) (hM2 : 0 < M2) (hR2 : 0 < R2)
    (hcap1 : ∀ r < R1,
      totalCountBytes (specCounts (partPairs R1 (keptPairs mind maxd lines) r))
        ≤ regionSize shmsize R1)
    (hcap2 : ∀ r < R2,
      totalCountBytes (specCounts (partPairs R2 (keptPairs mind maxd lines) r))
        ≤ regionSize shmsize R2)
    (hwf : ∀ g ∈ specAdj (keptPairs mind maxd lines),
      (adjLineP g).length ≤ 255 ∧ ((g.1 : Nat) : Int) < intMax) :
    out1BytesP M1 R1 mind maxd lines = out1BytesP M2 R2 mind maxd lines ∧
      out2BytesP shmsize M1 R1 mind maxd lines =
        out2BytesP shmsize M2 R2 mind maxd lines := by
  constructor
  · rw [out1BytesP_spec M1 R1 mind maxd lines hM1 hR1 hwf,
      out1BytesP_spec M2 R2 mind maxd lines hM2 hR2 hwf]
  · unfold out2BytesP
    rw [out2RecordsP_eq_specCounts shmsize M1 R1 mind maxd lines hM1 hR1 hcap1,
      out2RecordsP_eq_specCounts shmsize M2 R2 mind maxd lines hM2 hR2 hcap2]

theorem C4_parallelism_invariance_amended_witness :
    (0 : Nat) < 1 ∧ (0 : Nat) < 1 ∧ (0 : Nat) < 2 ∧ (0 : Nat) < 2 ∧
    (∀ r < 1, totalCountBytes (specCounts (partPairs 1 (keptPairs 0 100000
      [Line.edge 1 2, Line.edge 3 2, Line.edge 5 4]) r)) ≤ regionSize 20 1) ∧
    (∀ r < 2, totalCountBytes (specCounts (partPairs 2 (keptPairs 0 100000
      [Line.edge 1 2, Line.edge 3 2, Line.edge 5 4]) r)) ≤ regionSize 20 2) ∧
    (∀ g ∈ specAdj (keptPairs 0 100000
        [Line.edge 1 2, Line.edge 3 2, Line.edge 5 4]),
      (adjLineP g).length ≤ 255 ∧ ((g.1 : Nat) : Int) < intMax) ∧
    out1BytesP 1 1 0 100000 [Line.edge 1 2, Line.edge 3 2, Line.edge 5 4] =
      out1BytesP 2 2 0 100000 [Line.edge 1 2, Line.edge 3 2, Line.edge 5 4] :=
  ⟨by decide, by decide, by decide, by decide, by decide, by decide, by decide,
    (C4_parallelism_invariance_amended 20 1 1 2 2 0 100000
      [Line.edge 1 2, Line.edge 3 2, Line.edge 5 4]
      (by decide) (by decide) (by decide) (by decide) (by decide) (by decide)
      (by decide)).1⟩

/-- C5 counterexample: the run is not treated as fatal and entries ARE
silently dropped.  findsp: with SHMSIZE = 5 the kept dest 4 is in the
specification count view but absent from OUT2 (its line did not fit the
12-byte region; `group_and_write_output` ignores the -1 return, line 879).
findst: a reducer with 50001 emissions stores only the first 50000
(`results_capacity_per_reducer`), and the run continues. -/
theorem C5_counterexample_silent_drop :
    ((4, 1) ∈ specCounts (keptPairs 0 100000
        [Line.edge 7 1, Line.edge 7 2, Line.edge 7 3, Line.edge 7 4]) ∧
      (4, 1) ∉ out2RecordsP 5 1 1 0 100000
        [Line.edge 7 1, Line.edge 7 2, Line.edge 7 3, Line.edge 7 4]) ∧
    sliceWriteT resultsCapT ((List.range 50001).map (fun i => (i, 1))) 0 ≠
      (List.range 50001).map (fun i => (i, 1)) := by
  refine ⟨⟨by decide, ?_⟩, ?_⟩
  · rw [out2RecordsP_eval 5 1 1 0 100000 _ (by decide)]
    decide
  · intro h
    have hlen := congrArg List.length h
    rw [sliceWriteT_eq_take] at hlen
    simp [List.length_take] at hlen
    exact absurd hlen (by decide)

/-- C5 (amended): aggregation-capacity overflow is silent truncation, not a
fatal error.  findsp keeps the sublist of count entries whose formatted lines
fit the slice (all of them exactly when the total formatted size fits);
findst keeps the first `cap` emissions and drops the rest; in both backends
the run continues and produces output. -/
theorem C5_truncation_semantics_amended (max cap : Nat) (es : List (Nat × Nat))
    (w : Nat) :
    ((shmWrite max es 0).2 = es ↔ totalCountBytes es ≤ max) ∧
      (shmWrite max es w).2.Sublist es ∧
      sliceWriteT cap es w = es.take (cap - w) :=
  ⟨shmWrite_all_iff max es, shmWrite_snd_sublist max es w,
    sliceWriteT_eq_take cap es w⟩

/-- C6: found a code bug - findsp never validates.  `validate_arguments`
(findsp lines 316-323) is an unimplemented TODO stub returning 0 (success)
for every argument vector, so M = 21, R = 5 is accepted and the run proceeds
(the Splitter included); findst's inline validation (lines 82-102) does
reject M = 21. -/
theorem C6_validate_arguments_stub :
    validate_arguments 21 5 30 = 0 ∧ validateT 21 5 (-1) (-1) = false := by
  constructor
  · rfl
  · decide

/-- C7 counterexample: findst does not skip a malformed line and continue.
The invocation M = 1, R = 1, MIND = MAXD = -1 (no filter) passes findst's
argument validation (first conjunct), yet `run_mapper_thread`'s fscanf loop
stops at the first malformed line, so the well-formed record after it is lost
and the outputs differ from the same input with the bad line removed. -/
theorem C7_counterexample_findst_truncation :
    validateT 1 1 (-1) (-1) = true ∧
    out2RecordsT 1 1 (-1) (-1) [Line.edge 1 2, Line.bad, Line.edge 3 4] ≠
      out2RecordsT 1 1 (-1) (-1)
        ([Line.edge 1 2, Line.bad, Line.edge 3 4].filter goodLine) := by
  constructor
  · decide
  · decide

/-- C7 (amended): findsp does skip each malformed or negative record and
continue - its OUT1 and OUT2 are unchanged when those records are removed
from the input (`split_input_file` drops them without advancing `line_num`).
findst instead stops its mapper at the first malformed line: its emissions
are those of the longest all-parsing prefix of the segment (and a negative
record is never skipped). -/
theorem C7_bad_record_handling_amended (shmsize M R : Nat) (mind maxd : Int)
    (lines : List Line) :
    out1BytesP M R mind maxd lines =
        out1BytesP M R mind maxd (lines.filter goodLine) ∧
      out2RecordsP shmsize M R mind maxd lines =
        out2RecordsP shmsize M R mind maxd (lines.filter goodLine) ∧
      mapperT R mind maxd lines = mapperT R mind maxd (lines.takeWhile notBadT) :=
  ⟨out1BytesP_filter_good M R mind maxd lines,
    out2RecordsP_filter_good shmsize M R mind maxd lines,
    mapperT_takeWhile R mind maxd lines⟩

/-- C8 counterexample: findsp's splitter DOES filter.  With MIND = MAXD = 5
the single input record (1, 10) has stream index 0 ≡ 0 (mod 1), so the claim
puts it in segment 0; findsp's segment 0 is empty (the dest filter runs in
`split_input_file`), while findst's raw splitter keeps it. -/
theorem C8_counterexample_splitter_filters :
    segP 1 5 5 [Line.edge 1 10] 0 = [] ∧
    segT 1 [Line.edge 1 10] 0 = [Line.edge 1 10] := by
  decide

/-- C8 (amended): findst's splitter is exactly the claimed raw round-robin on
lines.  findsp's splitter instead parses, drops malformed and negative
records, applies the destination filter, and deals round-robin indices over
the parsed non-negative records (a dest-filtered record still consumes its
index). -/
theorem C8_splitter_characterization_amended (M : Nat) (mind maxd : Int)
    (lines : List Line) (i : Nat) :
    segT M lines i =
        (lines.enum.filter (fun p => p.1 % M == i)).map (fun p => p.2) ∧
      segP M mind maxd lines i =
        ((((goodRecs lines).enum.filter
            (fun p => keepDest mind maxd ((p.2.2 : Nat) : Int))).filter
              (fun p => p.1 % M == i)).map (fun p => p.2)) :=
  ⟨segT_eq_roundRobin M lines i, segP_eq_roundRobin M mind maxd lines i⟩

/-- C9: confirmed.  The partition key is a pure function of dest alone.  In
findsp every pair that reaches reducer r has dest ≡ r (mod R), so two pairs
with the same dest can only reach the same reducer, whichever mapper emitted
them; in findst every mapper emission carries spool index
`(dest % R) + 1` computed from its dest alone, so emissions with equal dests
get equal spool indices across any two mapper segments. -/
theorem C9_partition_key_pure (M R : Nat) (mind maxd : Int) (lines : List Line) :
    (∀ r r2 : Nat, ∀ p ∈ pairsAtRedP M R mind maxd lines r,
      ∀ q ∈ pairsAtRedP M R mind maxd lines r2, p.1 = q.1 → r = r2) ∧
    (∀ x ∈ mapperT R mind maxd lines, x.1 = cmod x.2.1 R + 1) ∧
    (∀ lines1 lines2 : List Line, ∀ x ∈ mapperT R mind maxd lines1,
      ∀ y ∈ mapperT R mind maxd lines2, x.2.1 = y.2.1 → x.1 = y.1) := by
  refine ⟨?_, mapperT_key R mind maxd lines, ?_⟩
  · intro r r2 p hp q hq hpq
    have h1 := pairsAtRedP_key M R mind maxd lines r p hp
    have h2 := pairsAtRedP_key M R mind maxd lines r2 q hq
    rw [← h1, ← h2, hpq]
  · intro lines1 lines2 x hx y hy hdd
    rw [mapperT_key R mind maxd lines1 x hx, mapperT_key R mind maxd lines2 y hy,
      hdd]

theorem C9_partition_key_pure_witness :
    ((2, 1) ∈ pairsAtRedP 1 2 0 100000 [Line.edge 1 2, Line.edge 3 2] 0 ∧
      (2, 3) ∈ pairsAtRedP 1 2 0 100000 [Line.edge 1 2, Line.edge 3 2] 0) ∧
    (0 : Nat) = 0 :=
  ⟨⟨by decide, by decide⟩,
    (C9_partition_key_pure 1 2 0 100000 [Line.edge 1 2, Line.edge 3 2]).1 0 0
      (2, 1) (by decide) (2, 3) (by decide) rfl⟩

/-- C10: confirmed.  The count text encoding is lossless: decoding a count
file recovers the entry list exactly.  When every reducer's formatted count
lines fit its slice, the bytes each reducer writes decode back to exactly its
(dest, count) emissions (`redCountsP`), recovered once each, and OUT2 is the
dest-sorted concatenation of those recovered entries. -/
theorem C10_shm_roundtrip (shmsize M R : Nat) (mind maxd : Int)
    (lines : List Line) (hM : 0 < M)
    (hcap : ∀ r < R,
      totalCountBytes (specCounts (partPairs R (keptPairs mind maxd lines) r))
        ≤ regionSize shmsize R) :
    (∀ es : List (Nat × Nat), decodeRegion (countFile es) = es) ∧
      (∀ r < R, decodeRegion (shmRegionP shmsize M R mind maxd lines r) =
        redCountsP M R mind maxd lines r) ∧
      out2RecordsP shmsize M R mind maxd lines =
        sortByDest ((List.range R).flatMap
          (fun r => redCountsP M R mind maxd lines r)) := by
  have hdec : ∀ r < R, decodeRegion (shmRegionP shmsize M R mind maxd lines r) =
      redCountsP M R mind maxd lines r := by
    intro r hr
    rw [decode_shmRegionP_eq shmsize M R mind maxd lines r hM (hcap r hr),
      redCountsP_eq M R mind maxd lines r hM]
  refine ⟨fun es => decodeRegion_flatMap es, hdec, ?_⟩
  unfold out2RecordsP
  congr 1
  refine flatMap_congr_fun _ _ _ ?_
  intro r hr
  exact hdec r (List.mem_range.1 hr)

theorem C10_shm_roundtrip_witness :
    (0 : Nat) < 1 ∧
    (∀ r < 2, totalCountBytes (specCounts (partPairs 2 (keptPairs 0 100000
      [Line.edge 1 2, Line.edge 5 4, Line.edge 3 2]) r)) ≤ regionSize 20 2) ∧
    decodeRegion (countFile [(2, 5), (7, 1)]) = [(2, 5), (7, 1)] :=
  ⟨by decide, by decide,
    (C10_shm_roundtrip 20 1 2 0 100000
      [Line.edge 1 2, Line.edge 5 4, Line.edge 3 2]
      (by decide) (by decide)).1 [(2, 5), (7, 1)]⟩
